import Mathlib

/-!
Verification of the ShivyC hand-written parser (src/parser.py).

The parser converts a list of tokens into an AST.  Its heart is a
shift-reduce expression engine plus a family of recursive-descent grammar
productions and a best-error tracker.  This file gives a shallow embedding
of that code and proves the specification claims about it.

The token-kind enumeration, the AST node constructors and the ParserError
class live in modules of the repository that are not under src/
(token_kinds.py, ast.py, errors.py); they are modelled from the spec as
plain data below.  Everything else is translated directly from
src/parser.py.
-/

set_option linter.unusedVariables false

/-- Modelled from the spec: the closed token-kind enumeration produced by the
lexer (token_kinds.py is not under src/).  Spec section 6 lists the keywords
`int`, `main`, `return`, the punctuation and the two token classes. -/
inductive TokenKind where
  | int_kw
  | main
  | open_paren
  | close_paren
  | open_brack
  | close_brack
  | return_kw
  | semicolon
  | plus
  | star
  | equals
  | number
  | identifier
  deriving DecidableEq, Repr

/-- Modelled from the spec: a token is an immutable terminal with a kind and
metadata (tokens.py is not under src/).  The metadata is summarised by a
content string; the parser only ever inspects the kind. -/
structure Token where
  kind : TokenKind
  content : String
  deriving DecidableEq, Repr

/-- Modelled from the spec: the AST node constructors (ast.py is not under
src/); spec section 3 lists the variants, which the parser treats as opaque
data constructors. -/
inductive Node where
  | MainNode : List Node → Node
  | DeclarationNode : Token → Node
  | ReturnNode : Node → Node
  | ExprStatementNode : Node → Node
  | NumberNode : Token → Node
  | IdentifierNode : Token → Node
  | ParenExprNode : Node → Node
  | BinaryOperatorNode : Node → Token → Node → Node
  deriving Repr

/-- Modelled from the spec: the three diagnostic anchoring modes of a
ParserError (errors.py is not under src/), spec section 4.4. -/
inductive Anchor where
  | AT
  | GOT
  | AFTER
  deriving DecidableEq, Repr

/-- Modelled from the spec: a ParserError carries a message, the failing
position and the anchoring mode (errors.py is not under src/), spec
section 6. -/
structure ParserError where
  message : String
  index : Nat
  anchor : Anchor
  deriving DecidableEq, Repr

/-- Modelled from the spec: the amount of input successfully parsed before
the failure is the error's index (spec sections 3 and 6: the error records
the "amount of input successfully parsed", which for all three anchoring
modes is the number of tokens before the failing position). -/
def ParserError.amount_parsed (e : ParserError) : Nat := e.index

/-- Parser.log_error: replace the best error whenever the new error parsed
no fewer tokens (source lines 287-296). -/
def log_error (best_error : Option ParserError) (error : ParserError) :
    Option ParserError :=
  match best_error with
  | none => some error
  | some b =>
    if error.amount_parsed ≥ b.amount_parsed then some error else some b

/-- An entry of the expression engine's parsing stack is either a raw token
or a completed AST node (source line 144-147: StackItem's item field). -/
inductive Item where
  | tok : Token → Item
  | node : Node → Item

/-- StackItem: an item together with the number of tokens consumed in
generating it (source line 147). -/
structure StackItem where
  item : Item
  length : Nat

/-- The precedence table of parse_expression (source lines 137-139). -/
def binary_operators : TokenKind → Option Nat
  | TokenKind.plus => some 11
  | TokenKind.star => some 12
  | TokenKind.equals => some 1
  | _ => none

/-- The set of right-associative assignment operators (source line 142). -/
def assignment_operators (k : TokenKind) : Bool :=
  k == TokenKind.equals

/-- The pre-emption test of the binary-operator reduction (source lines
187-197): the reduction is blocked when the next unconsumed token is a
strictly higher precedence binary operator, or when both the stacked
operator and the next token are assignment operators. -/
def preempted (tokens : List Token) (i : Nat) (opKind : TokenKind) : Bool :=
  match tokens[i]? with
  | none => false
  | some next =>
    (match binary_operators next.kind, binary_operators opKind with
     | some np, some sp => decide (np > sp)
     | _, _ => false)
    || (assignment_operators opKind && assignment_operators next.kind)

/-- The kinds that may be shifted onto the expression stack (source lines
216-220): number, identifier, parentheses, and the binary operators. -/
def expression_token (k : TokenKind) : Bool :=
  k == TokenKind.number || k == TokenKind.identifier ||
  k == TokenKind.open_paren || k == TokenKind.close_paren ||
  (binary_operators k).isSome

/-- The shift-or-break tail of the loop body (source lines 210-224): if the
input is exhausted or the next token can never appear in an expression,
stop; otherwise shift it onto the stack with span 1. -/
def shiftOrBreak (tokens : List Token) (stack : List StackItem) (i : Nat) :
    Option (List StackItem × Nat) :=
  match tokens[i]? with
  | none => none
  | some t =>
    if expression_token t.kind then
      some (StackItem.mk (Item.tok t) 1 :: stack, i + 1)
    else none

/-- One iteration of the shift-reduce loop of parse_expression (source lines
152-224).  The stack is kept top-first (the list head is Python's
stack[-1]).  The result is the next state, or none when the loop breaks. -/
def step (tokens : List Token) (stack : List StackItem) (i : Nat) :
    Option (List StackItem × Nat) :=
  match stack with
  | StackItem.mk (Item.tok t) tlen :: rest =>
    if t.kind = TokenKind.number then
      some (StackItem.mk (Item.node (Node.NumberNode t)) 1 :: rest, i)
    else if t.kind = TokenKind.identifier then
      some (StackItem.mk (Item.node (Node.IdentifierNode t)) 1 :: rest, i)
    else if t.kind = TokenKind.close_paren then
      match rest with
      | StackItem.mk (Item.node e) elen :: StackItem.mk (Item.tok o) olen :: rest2 =>
        if o.kind = TokenKind.open_paren then
          some (StackItem.mk (Item.node (Node.ParenExprNode e)) (elen + 2) :: rest2, i)
        else shiftOrBreak tokens stack i
      | _ => shiftOrBreak tokens stack i
    else shiftOrBreak tokens stack i
  | StackItem.mk (Item.node r) rlen :: rest =>
    match rest with
    | StackItem.mk (Item.tok o) olen :: StackItem.mk (Item.node l) llen :: rest2 =>
      if (binary_operators o.kind).isSome && !(preempted tokens i o.kind) then
        some (StackItem.mk (Item.node (Node.BinaryOperatorNode l o r))
                (llen + olen + rlen) :: rest2, i)
      else shiftOrBreak tokens stack i
    | _ => shiftOrBreak tokens stack i
  | [] => shiftOrBreak tokens stack i

/-- The number of raw tokens on the stack (part of the termination
measure). -/
def rawCount : List StackItem → Nat
  | [] => 0
  | StackItem.mk (Item.tok _) _ :: rest => rawCount rest + 1
  | StackItem.mk (Item.node _) _ :: rest => rawCount rest

/-- Termination measure of the shift-reduce loop: every shift advances the
cursor, and every reduction either shrinks the stack or turns a raw token
into a node. -/
def expMeasure (tokens : List Token) (stack : List StackItem) (i : Nat) : Nat :=
  3 * (tokens.length - i) + stack.length + rawCount stack

/-- The shift-reduce loop with explicit fuel; none means the fuel ran out
before the loop broke. -/
def runF : Nat → List Token → List StackItem → Nat → Option (List StackItem × Nat)
  | 0, _, _, _ => none
  | fuel + 1, tokens, stack, i =>
    match step tokens stack i with
    | none => some (stack, i)
    | some si => runF fuel tokens si.1 si.2

/-- The shift-reduce loop of parse_expression run to completion (the fuel
expMeasure + 1 is always sufficient, as proved below). -/
def run (tokens : List Token) (stack : List StackItem) (i : Nat) :
    List StackItem × Nat :=
  (runF (expMeasure tokens stack i + 1) tokens stack i).getD (stack, i)

/-- Parser.parse_expression (source lines 127-230): run the shift-reduce
loop from an empty stack; if the bottom of the final stack is a node,
succeed with it and the starting position plus its span, else fail.  The
stack being top-first, Python's stack[0] is the last element here. -/
def parse_expression (tokens : List Token) (index : Nat) :
    Except ParserError (Node × Nat) :=
  match (run tokens [] index).1.getLast? with
  | some (StackItem.mk (Item.node n) len) => Except.ok (n, index + len)
  | some (StackItem.mk (Item.tok t) len) =>
    Except.error (ParserError.mk "expected expression" index Anchor.GOT)
  | none =>
    Except.error (ParserError.mk "expected expression" index Anchor.GOT)

/-- Parser.match_tokens (source lines 268-285): check that the tokens
starting at index match the expected kinds in order; none plays the role
of the silent MatchError. -/
def match_tokens (tokens : List Token) (index : Nat)
    (kinds_expected : List TokenKind) : Option Nat :=
  let ts := tokens.drop index
  if ts.length < kinds_expected.length then none
  else if (kinds_expected.zip ts).all (fun kt => kt.1 == kt.2.kind) then
    some (index + kinds_expected.length)
  else none

/-- Parser.match_token (source lines 264-266). -/
def match_token (tokens : List Token) (index : Nat) (kind_expected : TokenKind) :
    Option Nat :=
  match_tokens tokens index [kind_expected]

/-- Parser.expect_semicolon (source lines 251-259). -/
def expect_semicolon (tokens : List Token) (index : Nat) :
    Except ParserError Nat :=
  match match_token tokens index TokenKind.semicolon with
  | some i => Except.ok i
  | none => Except.error (ParserError.mk "expected semicolon" index Anchor.AFTER)

/-- Parser.parse_return (source lines 111-120). -/
def parse_return (tokens : List Token) (index : Nat) :
    Except ParserError (Node × Nat) :=
  match match_token tokens index TokenKind.return_kw with
  | none => Except.error (ParserError.mk "expected return keyword" index Anchor.GOT)
  | some index1 =>
    match parse_expression tokens index1 with
    | Except.error e => Except.error e
    | Except.ok (node, index2) =>
      match expect_semicolon tokens index2 with
      | Except.error e => Except.error e
      | Except.ok index3 => Except.ok (Node.ReturnNode node, index3)

/-- Parser.parse_expr_statement (source lines 122-125). -/
def parse_expr_statement (tokens : List Token) (index : Nat) :
    Except ParserError (Node × Nat) :=
  match parse_expression tokens index with
  | Except.error e => Except.error e
  | Except.ok (node, index2) =>
    match expect_semicolon tokens index2 with
    | Except.error e => Except.error e
    | Except.ok index3 => Except.ok (Node.ExprStatementNode node, index3)

/-- Parser.parse_statement (source lines 103-109): try the return
production; on failure log its error and return the expression-statement
production's result unchanged.  The best-error slot is threaded
explicitly. -/
def parse_statement (tokens : List Token) (index : Nat)
    (best_error : Option ParserError) :
    Except ParserError (Node × Nat) × Option ParserError :=
  match parse_return tokens index with
  | Except.ok r => (Except.ok r, best_error)
  | Except.error e => (parse_expr_statement tokens index, log_error best_error e)

/-- Parser.parse_declaration (source lines 232-249). -/
def parse_declaration (tokens : List Token) (index : Nat) :
    Except ParserError (Node × Nat) :=
  match match_token tokens index TokenKind.int_kw with
  | none => Except.error (ParserError.mk "expected type name" index Anchor.GOT)
  | some index1 =>
    match match_token tokens index1 TokenKind.identifier with
    | none => Except.error (ParserError.mk "expected identifier" index1 Anchor.AFTER)
    | some index2 =>
      let variable_name := tokens.getD (index2 - 1) (Token.mk TokenKind.identifier "")
      match expect_semicolon tokens index2 with
      | Except.error e => Except.error e
      | Except.ok index3 => Except.ok (Node.DeclarationNode variable_name, index3)

/-- The statement/declaration loop of parse_main (source lines 77-93), with
explicit fuel; each successful iteration consumes at least one token, so
tokens.length + 1 fuel always suffices (proved below).  On a statement
failure its error is logged and a declaration is attempted; when both fail
the loop ends, logging both errors. -/
def mainLoopF : Nat → List Token → Nat → Option ParserError → List Node →
    Option ((List Node × Nat) × Option ParserError)
  | 0, _, _, _, _ => none
  | fuel + 1, tokens, index, best_error, nodes =>
    match parse_statement tokens index best_error with
    | (Except.ok (node, index2), be2) =>
      mainLoopF fuel tokens index2 be2 (nodes ++ [node])
    | (Except.error e, be2) =>
      let be3 := log_error be2 e
      match parse_declaration tokens index with
      | Except.ok (node, index2) => mainLoopF fuel tokens index2 be3 (nodes ++ [node])
      | Except.error e2 => some ((nodes, index), log_error be3 e2)

/-- The fixed opening token kinds of the main function (source lines
68-70). -/
def kinds_before : List TokenKind :=
  [TokenKind.int_kw, TokenKind.main, TokenKind.open_paren,
   TokenKind.close_paren, TokenKind.open_brack]

/-- Parser.parse_main (source lines 65-101). -/
def parse_main (tokens : List Token) (index : Nat)
    (best_error : Option ParserError) :
    Except ParserError (Node × Nat) × Option ParserError :=
  match match_tokens tokens index kinds_before with
  | none =>
    (Except.error (ParserError.mk "expected main function starting" index Anchor.AT),
     best_error)
  | some index1 =>
    let r := (mainLoopF (tokens.length + 1) tokens index1 best_error []).getD
      (([], index1), best_error)
    match match_token tokens r.1.2 TokenKind.close_brack with
    | none =>
      (Except.error (ParserError.mk "expected closing brace" r.1.2 Anchor.GOT), r.2)
    | some index3 => (Except.ok (Node.MainNode r.1.1, index3), r.2)

/-- Parser.parse (source lines 47-63): run the main production from index 0;
on failure log its error and raise the best error; on success fail if
tokens are left over, anchored AT the first leftover token. -/
def parse (tokens : List Token) : Except ParserError Node :=
  match parse_main tokens 0 none with
  | (Except.error e, be) => Except.error ((log_error be e).getD e)
  | (Except.ok (node, index), _) =>
    if tokens.drop index = [] then Except.ok node
    else Except.error (ParserError.mk "unexpected token" index Anchor.AT)

/-- The tokens stored in an AST, read left to right: expression atoms,
binary-operator tokens and declared names.  The structural tokens (the
main-function skeleton, parentheses, return keywords and semicolons) are
not retained by the node constructors. -/
def leafTokens : Node → List Token
  | Node.MainNode ns => leafList ns
  | Node.DeclarationNode t => [t]
  | Node.ReturnNode e => leafTokens e
  | Node.ExprStatementNode e => leafTokens e
  | Node.NumberNode t => [t]
  | Node.IdentifierNode t => [t]
  | Node.ParenExprNode e => leafTokens e
  | Node.BinaryOperatorNode l o r => leafTokens l ++ [o] ++ leafTokens r
where leafList : List Node → List Token
  | [] => []
  | n :: ns => leafTokens n ++ leafList ns

/-- The token kinds that the AST retains as leaves. -/
def keepKind (k : TokenKind) : Bool :=
  k == TokenKind.number || k == TokenKind.identifier ||
  k == TokenKind.plus || k == TokenKind.star || k == TokenKind.equals

/-- The sublist of retained tokens of a token list. -/
def keptTokens (l : List Token) : List Token :=
  l.filter (fun t => keepKind t.kind)

/-! ## Termination of the shift-reduce loop -/

lemma shiftOrBreak_some {tokens : List Token} {stack : List StackItem} {i : Nat}
    {s' : List StackItem × Nat} (h : shiftOrBreak tokens stack i = some s') :
    ∃ t, tokens[i]? = some t ∧ expression_token t.kind = true ∧
      s' = (StackItem.mk (Item.tok t) 1 :: stack, i + 1) := by
  unfold shiftOrBreak at h
  cases hg : tokens[i]? with
  | none =>
    simp only [hg] at h
    exact Option.noConfusion h
  | some t =>
    simp only [hg] at h
    by_cases he : expression_token t.kind = true
    · rw [if_pos he] at h
      cases h
      exact ⟨t, rfl, he, rfl⟩
    · rw [if_neg he] at h
      cases h

lemma measure_shift {tokens : List Token} {stack : List StackItem} {i : Nat}
    {s' : List StackItem × Nat} (h : shiftOrBreak tokens stack i = some s') :
    expMeasure tokens s'.1 s'.2 < expMeasure tokens stack i := by
  obtain ⟨t, hg, _, rfl⟩ := shiftOrBreak_some h
  have hi : i < tokens.length := by
    have := List.getElem?_eq_some.mp hg
    exact this.1
  simp only [expMeasure, rawCount, List.length_cons]
  omega

lemma step_decreases {tokens : List Token} {stack : List StackItem} {i : Nat}
    {s' : List StackItem × Nat} (h : step tokens stack i = some s') :
    expMeasure tokens s'.1 s'.2 < expMeasure tokens stack i := by
  unfold step at h
  repeat' split at h
  all_goals
    first
      | exact measure_shift h
      | (cases h
         simp only [expMeasure, rawCount, List.length_cons]
         omega)

lemma runF_isSome : ∀ (fuel : Nat) (tokens : List Token) (stack : List StackItem)
    (i : Nat), expMeasure tokens stack i < fuel →
    (runF fuel tokens stack i).isSome = true := by
  intro fuel
  induction fuel with
  | zero => intro tokens stack i h; exact absurd h (Nat.not_lt_zero _)
  | succ f ih =>
    intro tokens stack i h
    simp only [runF]
    cases hs : step tokens stack i with
    | none => rfl
    | some si =>
      have hd := step_decreases hs
      exact ih tokens si.1 si.2 (by omega)

lemma runF_irrel : ∀ (f g : Nat) (tokens : List Token) (stack : List StackItem)
    (i : Nat), expMeasure tokens stack i < f → expMeasure tokens stack i < g →
    runF f tokens stack i = runF g tokens stack i := by
  intro f
  induction f with
  | zero => intro g tokens stack i hf; exact absurd hf (Nat.not_lt_zero _)
  | succ f ih =>
    intro g tokens stack i hf hg
    cases g with
    | zero => exact absurd hg (Nat.not_lt_zero _)
    | succ g =>
      simp only [runF]
      cases hs : step tokens stack i with
      | none => rfl
      | some si =>
        have hd := step_decreases hs
        exact ih g tokens si.1 si.2 (by omega) (by omega)

lemma runF_run {tokens : List Token} {stack : List StackItem} {i : Nat}
    {fuel : Nat} (h : expMeasure tokens stack i < fuel) :
    runF fuel tokens stack i = some (run tokens stack i) := by
  have h1 : runF fuel tokens stack i =
      runF (expMeasure tokens stack i + 1) tokens stack i :=
    runF_irrel _ _ _ _ _ h (Nat.lt_succ_self _)
  rw [h1]
  unfold run
  cases hr : runF (expMeasure tokens stack i + 1) tokens stack i with
  | none =>
    have hi := runF_isSome (expMeasure tokens stack i + 1) tokens stack i
      (Nat.lt_succ_self _)
    rw [hr] at hi
    cases hi
  | some r => rfl

lemma run_eq (tokens : List Token) (stack : List StackItem) (i : Nat) :
    run tokens stack i =
      match step tokens stack i with
      | none => (stack, i)
      | some si => run tokens si.1 si.2 := by
  have h0 : runF (expMeasure tokens stack i + 1) tokens stack i
      = some (run tokens stack i) := runF_run (Nat.lt_succ_self _)
  cases hs : step tokens stack i with
  | none =>
    simp only [runF, hs] at h0
    exact (Option.some.inj h0).symm
  | some si =>
    simp only [runF, hs] at h0
    rw [runF_run (step_decreases hs)] at h0
    exact (Option.some.inj h0).symm

lemma run_step {tokens : List Token} {stack : List StackItem} {i : Nat}
    {si : List StackItem × Nat} (hs : step tokens stack i = some si) :
    run tokens stack i = run tokens si.1 si.2 := by
  rw [run_eq, hs]

lemma run_break {tokens : List Token} {stack : List StackItem} {i : Nat}
    (hs : step tokens stack i = none) :
    run tokens stack i = (stack, i) := by
  rw [run_eq, hs]

/-! ## The token-span invariant of the expression stack -/

/-- A stack item is sound for a segment of consumed tokens: a raw token item
is exactly that token with span 1; a node item's span is the segment length
and its leaves are the retained tokens of the segment. -/
def ItemOk : StackItem → List Token → Prop
  | StackItem.mk (Item.tok t) n, seg => seg = [t] ∧ n = 1
  | StackItem.mk (Item.node nd) n, seg =>
    seg.length = n ∧ 1 ≤ n ∧ leafTokens nd = keptTokens seg

/-- The stack (top-first) tiles the consumed tokens into contiguous
segments, the top item covering the last segment. -/
inductive CoversT : List StackItem → List Token → Prop
  | nil : CoversT [] []
  | cons : ∀ {it : StackItem} {seg : List Token} {rest : List StackItem}
      {pre : List Token}, ItemOk it seg → CoversT rest pre →
      CoversT (it :: rest) (pre ++ seg)

/-- The invariant of the shift-reduce loop: the cursor never moves below the
starting index, and the stack tiles the consumed tokens. -/
def RunInv (tokens : List Token) (index : Nat) (s : List StackItem × Nat) : Prop :=
  index ≤ s.2 ∧ CoversT s.1 ((tokens.drop index).take (s.2 - index))

lemma coversT_nil_inv {con : List Token} (h : CoversT [] con) : con = [] := by
  cases h
  rfl

lemma coversT_cons_inv {it : StackItem} {rest : List StackItem} {con : List Token}
    (h : CoversT (it :: rest) con) :
    ∃ pre seg, con = pre ++ seg ∧ ItemOk it seg ∧ CoversT rest pre := by
  cases h with
  | cons hI hC => exact ⟨_, _, rfl, hI, hC⟩

lemma coversT_length {stack : List StackItem} {con : List Token}
    (h : CoversT stack con) : (stack.map StackItem.length).sum = con.length := by
  induction h with
  | nil => rfl
  | cons hI hC ih =>
    rename_i it seg rest pre
    have hlen : seg.length = it.length := by
      rcases it with ⟨itm, n⟩
      cases itm with
      | tok t => rcases hI with ⟨rfl, rfl⟩; rfl
      | node nd => exact hI.1
    simp only [List.map_cons, List.sum_cons, List.length_append]
    omega

lemma coversT_bottom {stack : List StackItem} {con : List Token} {it : StackItem}
    (h : CoversT stack con) (hL : stack.getLast? = some it) :
    ∃ seg rest2, con = seg ++ rest2 ∧ ItemOk it seg := by
  induction h with
  | nil => cases hL
  | cons hI hC ih =>
    rename_i it' seg rest pre
    cases rest with
    | nil =>
      have hpre : pre = [] := coversT_nil_inv hC
      have : it' = it := by
        simp only [List.getLast?_singleton] at hL
        exact Option.some.inj hL
      subst this
      subst hpre
      exact ⟨seg, [], by simp, hI⟩
    | cons r rs =>
      have hL2 : (r :: rs).getLast? = some it := by
        rw [← hL]
        exact List.getLast?_cons_cons.symm
      obtain ⟨seg0, rest2, hpre, hok⟩ := ih hL2
      exact ⟨seg0, rest2 ++ seg, by rw [hpre]; simp, hok⟩

lemma keep_of_binop {k : TokenKind} (h : (binary_operators k).isSome = true) :
    keepKind k = true := by
  cases k <;> simp [binary_operators, keepKind] at h ⊢

lemma keptTokens_append (a b : List Token) :
    keptTokens (a ++ b) = keptTokens a ++ keptTokens b := by
  simp [keptTokens]

lemma consumed_succ {tokens : List Token} {index i : Nat} {t : Token}
    (hle : index ≤ i) (hg : tokens[i]? = some t) :
    (tokens.drop index).take (i + 1 - index) =
      (tokens.drop index).take (i - index) ++ [t] := by
  have h1 : i + 1 - index = (i - index) + 1 := by omega
  rw [h1, List.take_succ]
  have h2 : (tokens.drop index)[i - index]? = some t := by
    rw [List.getElem?_drop]
    have h3 : index + (i - index) = i := by omega
    rw [h3]
    exact hg
  rw [h2]
  rfl

lemma kept_single_keep {t : Token} (h : keepKind t.kind = true) :
    keptTokens [t] = [t] := by
  simp [keptTokens, List.filter, h]

lemma kept_single_drop {t : Token} (h : keepKind t.kind = false) :
    keptTokens [t] = [] := by
  simp [keptTokens, List.filter, h]

lemma inv_reduce_num {t : Token} {n : Nat} {rest : List StackItem}
    {con : List Token} (ht : t.kind = TokenKind.number)
    (h : CoversT (StackItem.mk (Item.tok t) n :: rest) con) :
    CoversT (StackItem.mk (Item.node (Node.NumberNode t)) 1 :: rest) con := by
  obtain ⟨pre, seg, rfl, hok, hcov⟩ := coversT_cons_inv h
  obtain ⟨rfl, rfl⟩ := hok
  refine CoversT.cons ?_ hcov
  refine ⟨rfl, le_refl 1, ?_⟩
  rw [kept_single_keep (by rw [ht]; rfl)]
  rfl

lemma inv_reduce_ident {t : Token} {n : Nat} {rest : List StackItem}
    {con : List Token} (ht : t.kind = TokenKind.identifier)
    (h : CoversT (StackItem.mk (Item.tok t) n :: rest) con) :
    CoversT (StackItem.mk (Item.node (Node.IdentifierNode t)) 1 :: rest) con := by
  obtain ⟨pre, seg, rfl, hok, hcov⟩ := coversT_cons_inv h
  obtain ⟨rfl, rfl⟩ := hok
  refine CoversT.cons ?_ hcov
  refine ⟨rfl, le_refl 1, ?_⟩
  rw [kept_single_keep (by rw [ht]; rfl)]
  rfl

lemma inv_reduce_paren {t o : Token} {n elen olen : Nat} {e : Node}
    {rest2 : List StackItem} {con : List Token}
    (ht : t.kind = TokenKind.close_paren) (ho : o.kind = TokenKind.open_paren)
    (h : CoversT (StackItem.mk (Item.tok t) n :: StackItem.mk (Item.node e) elen ::
      StackItem.mk (Item.tok o) olen :: rest2) con) :
    CoversT (StackItem.mk (Item.node (Node.ParenExprNode e)) (elen + 2) :: rest2) con := by
  obtain ⟨preT, segT, rfl, hokT, hcovT⟩ := coversT_cons_inv h
  obtain ⟨preE, segE, rfl, hokE, hcovE⟩ := coversT_cons_inv hcovT
  obtain ⟨preO, segO, rfl, hokO, hcovO⟩ := coversT_cons_inv hcovE
  obtain ⟨rfl, rfl⟩ := hokT
  obtain ⟨hlenE, hposE, hleafE⟩ := hokE
  obtain ⟨rfl, rfl⟩ := hokO
  have hcast : ((preO ++ [o]) ++ segE) ++ [t] = preO ++ ([o] ++ (segE ++ [t])) := by
    simp
  rw [hcast]
  refine CoversT.cons ?_ hcovO
  refine ⟨?_, by omega, ?_⟩
  · simp only [List.length_append, List.length_singleton]
    omega
  · show leafTokens e = keptTokens ([o] ++ (segE ++ [t]))
    rw [keptTokens_append, keptTokens_append]
    rw [kept_single_drop (by rw [ho]; rfl)]
    rw [kept_single_drop (by rw [ht]; rfl)]
    rw [hleafE]
    simp

lemma inv_reduce_binop {o : Token} {rlen olen llen : Nat} {r l : Node}
    {rest2 : List StackItem} {con : List Token}
    (ho : (binary_operators o.kind).isSome = true)
    (h : CoversT (StackItem.mk (Item.node r) rlen :: StackItem.mk (Item.tok o) olen ::
      StackItem.mk (Item.node l) llen :: rest2) con) :
    CoversT (StackItem.mk (Item.node (Node.BinaryOperatorNode l o r))
      (llen + olen + rlen) :: rest2) con := by
  obtain ⟨preR, segR, rfl, hokR, hcovR⟩ := coversT_cons_inv h
  obtain ⟨preO, segO, rfl, hokO, hcovO⟩ := coversT_cons_inv hcovR
  obtain ⟨preL, segL, rfl, hokL, hcovL⟩ := coversT_cons_inv hcovO
  obtain ⟨hlenR, hposR, hleafR⟩ := hokR
  obtain ⟨rfl, rfl⟩ := hokO
  obtain ⟨hlenL, hposL, hleafL⟩ := hokL
  have hcast : ((preL ++ segL) ++ [o]) ++ segR = preL ++ (segL ++ ([o] ++ segR)) := by
    simp
  rw [hcast]
  refine CoversT.cons ?_ hcovL
  refine ⟨?_, by omega, ?_⟩
  · simp only [List.length_append, List.length_singleton]
    omega
  · show leafTokens l ++ [o] ++ leafTokens r = keptTokens (segL ++ ([o] ++ segR))
    rw [keptTokens_append, keptTokens_append]
    rw [kept_single_keep (keep_of_binop ho)]
    rw [hleafR, hleafL]
    simp

lemma shift_inv {tokens : List Token} {index : Nat} {stack : List StackItem}
    {i : Nat} {s' : List StackItem × Nat}
    (hinv : RunInv tokens index (stack, i))
    (hs : shiftOrBreak tokens stack i = some s') : RunInv tokens index s' := by
  obtain ⟨hle, hcov⟩ := hinv
  obtain ⟨t, hg, he, rfl⟩ := shiftOrBreak_some hs
  constructor
  · exact Nat.le_succ_of_le hle
  · show CoversT _ ((tokens.drop index).take (i + 1 - index))
    rw [consumed_succ hle hg]
    exact CoversT.cons ⟨rfl, rfl⟩ hcov

lemma step_inv {tokens : List Token} {index : Nat} {stack : List StackItem}
    {i : Nat} {s' : List StackItem × Nat} (hinv : RunInv tokens index (stack, i))
    (hs : step tokens stack i = some s') : RunInv tokens index s' := by
  rcases stack with _ | ⟨⟨t1 | m1, len1⟩, _ | ⟨⟨t2 | m2, len2⟩, _ | ⟨⟨t3 | m3, len3⟩, rest3⟩⟩⟩
  all_goals simp only [step] at hs
  all_goals try split_ifs at hs with h1 h2 h3 h4
  all_goals
    first
      | exact shift_inv hinv hs
      | (cases hs
         first
           | exact ⟨hinv.1, inv_reduce_num h1 hinv.2⟩
           | exact ⟨hinv.1, inv_reduce_ident h2 hinv.2⟩
           | exact ⟨hinv.1, inv_reduce_paren h3 h4 hinv.2⟩
           | exact ⟨hinv.1, inv_reduce_binop
               (by simp only [Bool.and_eq_true] at h1; exact h1.1) hinv.2⟩)

lemma run_inv_aux (tokens : List Token) (index : Nat) : ∀ (n : Nat)
    (stack : List StackItem) (i : Nat), expMeasure tokens stack i < n →
    RunInv tokens index (stack, i) → RunInv tokens index (run tokens stack i) := by
  intro n
  induction n with
  | zero => intro stack i h; exact absurd h (Nat.not_lt_zero _)
  | succ n ih =>
    intro stack i h hinv
    cases hs : step tokens stack i with
    | none => rw [run_break hs]; exact hinv
    | some si =>
      rw [run_step hs]
      have hd := step_decreases hs
      exact ih si.1 si.2 (by omega) (step_inv hinv hs)

lemma run_inv {tokens : List Token} {index : Nat} {stack : List StackItem}
    {i : Nat} (hinv : RunInv tokens index (stack, i)) :
    RunInv tokens index (run tokens stack i) :=
  run_inv_aux tokens index (expMeasure tokens stack i + 1) stack i
    (Nat.lt_succ_self _) hinv

lemma run_inv_initial (tokens : List Token) (index : Nat) :
    RunInv tokens index (run tokens [] index) := by
  refine run_inv ⟨le_refl index, ?_⟩
  have h0 : index - index = 0 := by omega
  rw [h0]
  exact CoversT.nil

/-- Success facts of parse_expression: a successful parse makes strict
progress, stays within bounds, and its node's leaves are the retained
tokens of the consumed segment. -/
lemma parse_expression_ok {tokens : List Token} {index : Nat} {n : Node}
    {pos : Nat} (h : parse_expression tokens index = Except.ok (n, pos)) :
    index < pos ∧ pos ≤ tokens.length ∧
      leafTokens n = keptTokens ((tokens.drop index).take (pos - index)) := by
  unfold parse_expression at h
  cases hL : (run tokens [] index).1.getLast? with
  | none => rw [hL] at h; cases h
  | some it =>
    rcases it with ⟨tt | nd, len⟩
    · rw [hL] at h; cases h
    · rw [hL] at h
      cases h
      have hinv := run_inv_initial tokens index
      obtain ⟨hle, hcov⟩ := hinv
      obtain ⟨seg, rest2, hcon, hok⟩ := coversT_bottom hcov hL
      obtain ⟨hlen, hpos, hleaf⟩ := hok
      set iF := (run tokens [] index).2 with hiF
      have hconlen : ((tokens.drop index).take (iF - index)).length =
          min (iF - index) (tokens.length - index) := by
        rw [List.length_take, List.length_drop]
      have hseglen : seg.length + rest2.length =
          ((tokens.drop index).take (iF - index)).length := by
        rw [hcon]; simp
      have hlen_le : len ≤ iF - index := by omega
      have hlen_le2 : len ≤ tokens.length - index := by omega
      refine ⟨by omega, by omega, ?_⟩
      have hseg : seg = (tokens.drop index).take len := by
        have h1 : seg = ((tokens.drop index).take (iF - index)).take len := by
          rw [hcon, ← hlen]
          exact (List.take_left seg rest2).symm
        rw [h1, List.take_take]
        have : min len (iF - index) = len := by omega
        rw [this]
      have hlast : index + len - index = len := by omega
      rw [hlast, ← hseg]
      exact hleaf

/-! ## The token matcher -/

lemma zip_all_iff : ∀ (kinds : List TokenKind) (ts : List Token),
    kinds.length ≤ ts.length →
    (((kinds.zip ts).all fun kt => kt.1 == kt.2.kind) = true ↔
      (ts.take kinds.length).map Token.kind = kinds) := by
  intro kinds
  induction kinds with
  | nil => intro ts h; simp
  | cons k ks ih =>
    intro ts h
    cases ts with
    | nil => simp at h
    | cons t ts2 =>
      simp only [List.zip_cons_cons, List.all_cons, List.length_cons,
        List.take_succ_cons, List.map_cons, Bool.and_eq_true]
      have h2 : ks.length ≤ ts2.length := by
        simp only [List.length_cons] at h
        omega
      rw [ih ts2 h2]
      constructor
      · rintro ⟨h1, h3⟩
        rw [List.cons.injEq]
        exact ⟨(beq_iff_eq.mp h1).symm, h3⟩
      · intro h1
        rw [List.cons.injEq] at h1
        exact ⟨beq_iff_eq.mpr h1.1.symm, h1.2⟩

lemma match_tokens_some_iff {tokens : List Token} {index : Nat}
    {kinds : List TokenKind} {p : Nat} :
    match_tokens tokens index kinds = some p ↔
      (p = index + kinds.length ∧
        ((tokens.drop index).take kinds.length).map Token.kind = kinds) := by
  simp only [match_tokens]
  by_cases hlt : (tokens.drop index).length < kinds.length
  · rw [if_pos hlt]
    constructor
    · intro h; cases h
    · rintro ⟨rfl, hmap⟩
      exfalso
      have hl := congrArg List.length hmap
      rw [List.length_map, List.length_take] at hl
      omega
  · rw [if_neg hlt]
    by_cases hall : ((kinds.zip (tokens.drop index)).all fun kt => kt.1 == kt.2.kind) = true
    · rw [if_pos hall]
      have hiff := zip_all_iff kinds (tokens.drop index) (by omega)
      constructor
      · intro h
        cases h
        exact ⟨rfl, hiff.mp hall⟩
      · rintro ⟨rfl, hmap⟩; rfl
    · rw [if_neg hall]
      constructor
      · intro h; cases h
      · rintro ⟨rfl, hmap⟩
        exact absurd ((zip_all_iff kinds _ (by omega)).mpr hmap) hall

lemma match_tokens_short {tokens : List Token} {index : Nat}
    {kinds : List TokenKind}
    (h : tokens.length - index < kinds.length) :
    match_tokens tokens index kinds = none := by
  simp only [match_tokens]
  rw [if_pos]
  rw [List.length_drop]
  exact h

lemma match_tokens_bound {tokens : List Token} {index : Nat}
    {kinds : List TokenKind} {p : Nat}
    (h : match_tokens tokens index kinds = some p) (hne : 0 < kinds.length) :
    p = index + kinds.length ∧ index < tokens.length ∧
      index + kinds.length ≤ tokens.length := by
  obtain ⟨rfl, hmap⟩ := match_tokens_some_iff.mp h
  have hl := congrArg List.length hmap
  rw [List.length_map, List.length_take, List.length_drop] at hl
  refine ⟨rfl, by omega, by omega⟩

lemma match_token_some_iff {tokens : List Token} {index : Nat}
    {k : TokenKind} {p : Nat} :
    match_token tokens index k = some p ↔
      (p = index + 1 ∧ ∃ t, tokens[index]? = some t ∧ t.kind = k) := by
  unfold match_token
  rw [match_tokens_some_iff]
  simp only [List.length_singleton]
  have h1 : (tokens.drop index).take 1 = (tokens.drop index).head?.toList := by
    cases hd : tokens.drop index with
    | nil => rfl
    | cons a l => simp [List.take_succ_cons]
  rw [h1, List.head?_drop]
  constructor
  · rintro ⟨rfl, hmap⟩
    refine ⟨rfl, ?_⟩
    cases hg : tokens[index]? with
    | none => rw [hg] at hmap; cases hmap
    | some t =>
      rw [hg] at hmap
      simp only [Option.toList_some, List.map_cons, List.map_nil,
        List.cons.injEq] at hmap
      exact ⟨t, rfl, hmap.1⟩
  · rintro ⟨rfl, t, hg, hk⟩
    rw [hg]
    simp [hk]

lemma segment_split (tokens : List Token) (a b c : Nat) (hab : a ≤ b)
    (hbc : b ≤ c) :
    (tokens.drop a).take (c - a) =
      (tokens.drop a).take (b - a) ++ (tokens.drop b).take (c - b) := by
  have h1 : c - a = (b - a) + (c - b) := by omega
  rw [h1, List.take_add]
  congr 1
  rw [List.drop_drop]
  have h2 : a + (b - a) = b := by omega
  rw [h2]

lemma segment_single {tokens : List Token} {a : Nat} {t : Token}
    (h : tokens[a]? = some t) : (tokens.drop a).take 1 = [t] := by
  have hc := consumed_succ (le_refl a) h
  have h0 : a - a = 0 := by omega
  have h1 : a + 1 - a = 1 := by omega
  rw [h0, h1] at hc
  simpa using hc

/-! ## Grammar production facts -/

/-- The segment of tokens from position a (inclusive) to b (exclusive). -/
def seg (tokens : List Token) (a b : Nat) : List Token :=
  (tokens.drop a).take (b - a)

lemma seg_split {tokens : List Token} {a b c : Nat} (hab : a ≤ b) (hbc : b ≤ c) :
    seg tokens a c = seg tokens a b ++ seg tokens b c :=
  segment_split tokens a b c hab hbc

lemma seg_single {tokens : List Token} {a : Nat} {t : Token}
    (h : tokens[a]? = some t) : seg tokens a (a + 1) = [t] := by
  unfold seg
  have h1 : a + 1 - a = 1 := by omega
  rw [h1]
  exact segment_single h

lemma seg_refl (tokens : List Token) (a : Nat) : seg tokens a a = [] := by
  unfold seg
  have h1 : a - a = 0 := by omega
  rw [h1]
  rfl

lemma parse_expression_ok2 {tokens : List Token} {index : Nat} {n : Node}
    {pos : Nat} (h : parse_expression tokens index = Except.ok (n, pos)) :
    index < pos ∧ pos ≤ tokens.length ∧
      leafTokens n = keptTokens (seg tokens index pos) :=
  parse_expression_ok h

lemma expect_semicolon_ok {tokens : List Token} {index p : Nat}
    (h : expect_semicolon tokens index = Except.ok p) :
    p = index + 1 ∧ ∃ t, tokens[index]? = some t ∧ t.kind = TokenKind.semicolon := by
  unfold expect_semicolon at h
  cases hm : match_token tokens index TokenKind.semicolon with
  | none => rw [hm] at h; cases h
  | some i =>
    rw [hm] at h
    cases h
    exact match_token_some_iff.mp hm

lemma expect_semicolon_err {tokens : List Token} {index : Nat} {e : ParserError}
    (h : expect_semicolon tokens index = Except.error e) :
    e = ParserError.mk "expected semicolon" index Anchor.AFTER := by
  unfold expect_semicolon at h
  cases hm : match_token tokens index TokenKind.semicolon with
  | none =>
    rw [hm] at h
    cases h
    rfl
  | some i => rw [hm] at h; cases h

lemma kept_of_unkept_kinds {l : List Token} {ks : List TokenKind}
    (hmap : l.map Token.kind = ks) (hks : ∀ k ∈ ks, keepKind k = false) :
    keptTokens l = [] := by
  unfold keptTokens
  rw [List.filter_eq_nil]
  intro t ht
  have : t.kind ∈ ks := by
    rw [← hmap]
    exact List.mem_map_of_mem Token.kind ht
  have hk := hks t.kind this
  simp [hk]

lemma kept_single_of_kind {t : Token} {k : TokenKind} (hk : t.kind = k)
    (hkeep : keepKind k = false) : keptTokens [t] = [] := by
  apply kept_single_drop
  rw [hk]
  exact hkeep

lemma parse_return_ok {tokens : List Token} {index : Nat} {nd : Node}
    {pos : Nat} (h : parse_return tokens index = Except.ok (nd, pos)) :
    index < pos ∧ pos ≤ tokens.length ∧
      leafTokens nd = keptTokens (seg tokens index pos) := by
  unfold parse_return at h
  cases hm : match_token tokens index TokenKind.return_kw with
  | none => simp only [hm] at h; cases h
  | some index1 =>
    simp only [hm] at h
    obtain ⟨rfl, rt, hrt, hrtk⟩ := match_token_some_iff.mp hm
    cases hex : parse_expression tokens (index + 1) with
    | error e => simp only [hex] at h; cases h
    | ok p =>
      rcases p with ⟨en, index2⟩
      simp only [hex] at h
      obtain ⟨hprog, hbound, hleaf⟩ := parse_expression_ok2 hex
      cases hsem : expect_semicolon tokens index2 with
      | error e => simp only [hsem] at h; cases h
      | ok index3 =>
        simp only [hsem] at h
        cases h
        obtain ⟨rfl, st, hst, hstk⟩ := expect_semicolon_ok hsem
        have hi2 : index2 < tokens.length := (List.getElem?_eq_some.mp hst).1
        refine ⟨by omega, by omega, ?_⟩
        have hs1 : seg tokens index (index2 + 1) =
            seg tokens index (index + 1) ++ seg tokens (index + 1) (index2 + 1) :=
          seg_split (by omega) (by omega)
        have hs2 : seg tokens (index + 1) (index2 + 1) =
            seg tokens (index + 1) index2 ++ seg tokens index2 (index2 + 1) :=
          seg_split (by omega) (by omega)
        rw [hs1, hs2, seg_single hrt, seg_single hst]
        rw [keptTokens_append, keptTokens_append]
        rw [kept_single_of_kind hrtk rfl, kept_single_of_kind hstk rfl]
        show leafTokens en = [] ++ (keptTokens (seg tokens (index + 1) index2) ++ [])
        rw [hleaf]
        simp

lemma parse_expr_statement_ok {tokens : List Token} {index : Nat} {nd : Node}
    {pos : Nat} (h : parse_expr_statement tokens index = Except.ok (nd, pos)) :
    index < pos ∧ pos ≤ tokens.length ∧
      leafTokens nd = keptTokens (seg tokens index pos) := by
  unfold parse_expr_statement at h
  cases hex : parse_expression tokens index with
  | error e => simp only [hex] at h; cases h
  | ok p =>
    rcases p with ⟨en, index2⟩
    simp only [hex] at h
    obtain ⟨hprog, hbound, hleaf⟩ := parse_expression_ok2 hex
    cases hsem : expect_semicolon tokens index2 with
    | error e => simp only [hsem] at h; cases h
    | ok index3 =>
      simp only [hsem] at h
      cases h
      obtain ⟨rfl, st, hst, hstk⟩ := expect_semicolon_ok hsem
      have hi2 : index2 < tokens.length := (List.getElem?_eq_some.mp hst).1
      refine ⟨by omega, by omega, ?_⟩
      have hs2 : seg tokens index (index2 + 1) =
          seg tokens index index2 ++ seg tokens index2 (index2 + 1) :=
        seg_split (by omega) (by omega)
      rw [hs2, seg_single hst]
      rw [keptTokens_append]
      rw [kept_single_of_kind hstk rfl]
      show leafTokens en = keptTokens (seg tokens index index2) ++ []
      rw [hleaf]
      simp

lemma parse_statement_ok {tokens : List Token} {index : Nat}
    {be be2 : Option ParserError} {nd : Node} {pos : Nat}
    (h : parse_statement tokens index be = (Except.ok (nd, pos), be2)) :
    index < pos ∧ pos ≤ tokens.length ∧
      leafTokens nd = keptTokens (seg tokens index pos) := by
  unfold parse_statement at h
  cases hr : parse_return tokens index with
  | ok r =>
    rw [hr] at h
    rcases r with ⟨nd0, pos0⟩
    cases h
    exact parse_return_ok hr
  | error e =>
    rw [hr] at h
    have h2 : parse_expr_statement tokens index = Except.ok (nd, pos) := by
      have := congrArg Prod.fst h
      simpa using this
    exact parse_expr_statement_ok h2

lemma parse_declaration_ok {tokens : List Token} {index : Nat} {nd : Node}
    {pos : Nat} (h : parse_declaration tokens index = Except.ok (nd, pos)) :
    index < pos ∧ pos ≤ tokens.length ∧
      leafTokens nd = keptTokens (seg tokens index pos) := by
  unfold parse_declaration at h
  cases hm : match_token tokens index TokenKind.int_kw with
  | none => simp only [hm] at h; cases h
  | some index1 =>
    simp only [hm] at h
    obtain ⟨rfl, it, hit, hitk⟩ := match_token_some_iff.mp hm
    cases hm2 : match_token tokens (index + 1) TokenKind.identifier with
    | none => simp only [hm2] at h; cases h
    | some index2 =>
      simp only [hm2] at h
      obtain ⟨rfl, idt, hidt, hidtk⟩ := match_token_some_iff.mp hm2
      cases hsem : expect_semicolon tokens (index + 1 + 1) with
      | error e => simp only [hsem] at h; cases h
      | ok index3 =>
        simp only [hsem] at h
        cases h
        obtain ⟨rfl, st, hst, hstk⟩ := expect_semicolon_ok hsem
        have hi2 : index + 1 + 1 < tokens.length := (List.getElem?_eq_some.mp hst).1
        refine ⟨by omega, by omega, ?_⟩
        have hname : tokens.getD (index + 1 + 1 - 1) (Token.mk TokenKind.identifier "")
            = idt := by
          have hx : index + 1 + 1 - 1 = index + 1 := by omega
          rw [hx, List.getD_eq_getElem?_getD, hidt]
          rfl
        rw [hname]
        have hs1 : seg tokens index (index + 1 + 1 + 1) =
            seg tokens index (index + 1) ++ seg tokens (index + 1) (index + 1 + 1 + 1) :=
          seg_split (by omega) (by omega)
        have hs2 : seg tokens (index + 1) (index + 1 + 1 + 1) =
            seg tokens (index + 1) (index + 1 + 1) ++
              seg tokens (index + 1 + 1) (index + 1 + 1 + 1) :=
          seg_split (by omega) (by omega)
        rw [hs1, hs2, seg_single hit, seg_single hidt, seg_single hst]
        rw [keptTokens_append, keptTokens_append]
        rw [kept_single_of_kind hitk rfl, kept_single_of_kind hstk rfl]
        rw [kept_single_keep (by rw [hidtk]; rfl)]
        show leafTokens (Node.DeclarationNode idt) = [] ++ ([idt] ++ [])
        simp [leafTokens]

lemma leafList_append (a b : List Node) :
    leafTokens.leafList (a ++ b) = leafTokens.leafList a ++ leafTokens.leafList b := by
  induction a with
  | nil => rfl
  | cons n ns ih => simp [leafTokens.leafList, ih]

lemma mainLoopF_ok : ∀ (fuel : Nat) (tokens : List Token) (index : Nat)
    (be : Option ParserError) (nodes nodes2 : List Node) (index2 : Nat)
    (be2 : Option ParserError),
    mainLoopF fuel tokens index be nodes = some ((nodes2, index2), be2) →
    index ≤ index2 ∧ (index2 ≤ tokens.length ∨ index2 = index) ∧
      leafTokens.leafList nodes2 =
        leafTokens.leafList nodes ++ keptTokens (seg tokens index index2) := by
  intro fuel
  induction fuel with
  | zero => intro tokens index be nodes nodes2 index2 be2 h; cases h
  | succ f ih =>
    intro tokens index be nodes nodes2 index2 be2 h
    simp only [mainLoopF] at h
    rcases hst : parse_statement tokens index be with ⟨res, be3⟩
    rcases res with e | ⟨node, idxS⟩
    · simp only [hst] at h
      rcases hdec : parse_declaration tokens index with e2 | ⟨node, idxS⟩
      · simp only [hdec] at h
        cases h
        refine ⟨le_refl index, Or.inr rfl, ?_⟩
        rw [seg_refl]
        simp [keptTokens]
      · simp only [hdec] at h
        obtain ⟨hle, hdisj, hleaf⟩ := ih tokens idxS _ _ _ _ _ h
        obtain ⟨hp1, hp2, hp3⟩ := parse_declaration_ok hdec
        refine ⟨by omega, Or.inl (by omega), ?_⟩
        rw [hleaf, leafList_append]
        have hsg : seg tokens index index2 =
            seg tokens index idxS ++ seg tokens idxS index2 :=
          seg_split (by omega) (by omega)
        rw [hsg, keptTokens_append, ← hp3]
        simp [leafTokens.leafList]
    · simp only [hst] at h
      obtain ⟨hle, hdisj, hleaf⟩ := ih tokens idxS _ _ _ _ _ h
      obtain ⟨hp1, hp2, hp3⟩ := parse_statement_ok hst
      refine ⟨by omega, Or.inl (by omega), ?_⟩
      rw [hleaf, leafList_append]
      have hsg : seg tokens index index2 =
          seg tokens index idxS ++ seg tokens idxS index2 :=
        seg_split (by omega) (by omega)
      rw [hsg, keptTokens_append, ← hp3]
      simp [leafTokens.leafList]

lemma mainLoopF_isSome : ∀ (fuel : Nat) (tokens : List Token) (index : Nat)
    (be : Option ParserError) (nodes : List Node),
    tokens.length + 1 - index < fuel →
    (mainLoopF fuel tokens index be nodes).isSome = true := by
  intro fuel
  induction fuel with
  | zero => intro tokens index be nodes h; exact absurd h (Nat.not_lt_zero _)
  | succ f ih =>
    intro tokens index be nodes h
    simp only [mainLoopF]
    rcases hst : parse_statement tokens index be with ⟨res, be3⟩
    rcases res with e | ⟨node, idxS⟩
    · rcases hdec : parse_declaration tokens index with e2 | ⟨node, idxS⟩
      · simp [hst, hdec]
      · obtain ⟨hp1, hp2, hp3⟩ := parse_declaration_ok hdec
        simp only [hst, hdec]
        exact ih tokens idxS _ _ (by omega)
    · obtain ⟨hp1, hp2, hp3⟩ := parse_statement_ok hst
      simp only [hst]
      exact ih tokens idxS _ _ (by omega)

lemma parse_main_ok {tokens : List Token} {index : Nat}
    {be be2 : Option ParserError} {nd : Node} {pos : Nat}
    (h : parse_main tokens index be = (Except.ok (nd, pos), be2)) :
    index < pos ∧ pos ≤ tokens.length ∧
      leafTokens nd = keptTokens (seg tokens index pos) := by
  unfold parse_main at h
  cases hm : match_tokens tokens index kinds_before with
  | none =>
    simp only [hm] at h
    exact absurd (congrArg Prod.fst h) (by simp)
  | some index1 =>
    simp only [hm] at h
    have hk5 : kinds_before.length = 5 := rfl
    obtain ⟨rfl, hidx, hbound⟩ := match_tokens_bound hm (by rw [hk5]; omega)
    have hsome := mainLoopF_isSome (tokens.length + 1) tokens
      (index + kinds_before.length) be [] (by omega)
    obtain ⟨r0, hr0⟩ := Option.isSome_iff_exists.mp hsome
    rcases r0 with ⟨⟨nodes2, index2⟩, be3⟩
    rw [hr0] at h
    simp only [Option.getD_some] at h
    obtain ⟨hge, hdisj, hleaf⟩ := mainLoopF_ok _ _ _ _ _ _ _ _ hr0
    cases hcb : match_token tokens index2 TokenKind.close_brack with
    | none =>
      simp only [hcb] at h
      exact absurd (congrArg Prod.fst h) (by simp)
    | some index3 =>
      simp only [hcb] at h
      obtain ⟨rfl, bt, hbt, hbtk⟩ := match_token_some_iff.mp hcb
      have h1 := congrArg Prod.fst h
      simp only [Prod.fst] at h1
      cases h1
      have hi2 : index2 < tokens.length := (List.getElem?_eq_some.mp hbt).1
      refine ⟨by omega, by omega, ?_⟩
      have hsg1 : seg tokens index (index2 + 1) =
          seg tokens index (index + kinds_before.length) ++
            seg tokens (index + kinds_before.length) (index2 + 1) :=
        seg_split (by omega) (by omega)
      have hsg2 : seg tokens (index + kinds_before.length) (index2 + 1) =
          seg tokens (index + kinds_before.length) index2 ++
            seg tokens index2 (index2 + 1) :=
        seg_split (by omega) (by omega)
      rw [hsg1, hsg2, seg_single hbt]
      rw [keptTokens_append, keptTokens_append]
      have hpro : keptTokens (seg tokens index (index + kinds_before.length)) = [] := by
        have hmap := (match_tokens_some_iff.mp hm).2
        have hseg_eq : seg tokens index (index + kinds_before.length) =
            (tokens.drop index).take kinds_before.length := by
          unfold seg
          have hx : index + kinds_before.length - index = kinds_before.length := by omega
          rw [hx]
        rw [hseg_eq]
        refine kept_of_unkept_kinds hmap ?_
        intro k hkk
        simp only [kinds_before, List.mem_cons, List.not_mem_nil, or_false] at hkk
        rcases hkk with rfl | rfl | rfl | rfl | rfl <;> rfl
      rw [hpro, kept_single_of_kind hbtk rfl]
      show leafTokens (Node.MainNode nodes2) =
        [] ++ (keptTokens (seg tokens (index + kinds_before.length) index2) ++ [])
      have hln : leafTokens (Node.MainNode nodes2) = leafTokens.leafList nodes2 := rfl
      rw [hln, hleaf]
      simp [leafTokens.leafList]

lemma parse_ok_leaves {tokens : List Token} {nd : Node}
    (h : parse tokens = Except.ok nd) : leafTokens nd = keptTokens tokens := by
  unfold parse at h
  rcases hpm : parse_main tokens 0 none with ⟨res, be⟩
  rcases res with e | ⟨node, index⟩
  · simp only [hpm] at h; cases h
  · simp only [hpm] at h
    by_cases hd : tokens.drop index = []
    · rw [if_pos hd] at h
      cases h
      obtain ⟨hpos, hbound, hleaf⟩ := parse_main_ok hpm
      have hlen0 : (tokens.drop index).length = 0 := by rw [hd]; rfl
      rw [List.length_drop] at hlen0
      have hidx : index = tokens.length := by omega
      rw [hleaf, hidx]
      unfold seg
      simp
    · rw [if_neg hd] at h; cases h

/-! ## Concrete inputs for witnesses and counterexamples -/

def tok_int : Token := Token.mk TokenKind.int_kw "int"

def tok_main : Token := Token.mk TokenKind.main "main"

def tok_lparen : Token := Token.mk TokenKind.open_paren "("

def tok_rparen : Token := Token.mk TokenKind.close_paren ")"

def tok_lbrace : Token := Token.mk TokenKind.open_brack "\x7b"

def tok_rbrace : Token := Token.mk TokenKind.close_brack "\x7d"

def tok_return : Token := Token.mk TokenKind.return_kw "return"

def tok_semi : Token := Token.mk TokenKind.semicolon ";"

def tok_plus : Token := Token.mk TokenKind.plus "+"

def tok_star : Token := Token.mk TokenKind.star "*"

def tok_assign : Token := Token.mk TokenKind.equals "="

def tok_num4 : Token := Token.mk TokenKind.number "4"

def tok_a : Token := Token.mk TokenKind.identifier "a"

def tok_b : Token := Token.mk TokenKind.identifier "b"

def tok_c : Token := Token.mk TokenKind.identifier "c"

def tok_extra : Token := Token.mk TokenKind.identifier "extra"

/-- The token sequence of the program: int main ( ) { return 4 ; } -/
def demoTokens : List Token :=
  [tok_int, tok_main, tok_lparen, tok_rparen, tok_lbrace,
   tok_return, tok_num4, tok_semi, tok_rbrace]

/-- The AST that parsing demoTokens produces. -/
def demoTree : Node :=
  Node.MainNode [Node.ReturnNode (Node.NumberNode tok_num4)]

/-! ## Claim theorems -/

/-- Claim C7: the token matcher succeeds with position index + len(expected)
exactly when the contiguous run of tokens starting at index matches every
expected kind in order, and it fails with the silent no-match signal (none)
whenever fewer tokens remain than expected kinds, without any out-of-bounds
access. -/
theorem claim_C7 (tokens : List Token) (index : Nat)
    (kinds_expected : List TokenKind) :
    (∀ p, match_tokens tokens index kinds_expected = some p ↔
      (p = index + kinds_expected.length ∧
        ((tokens.drop index).take kinds_expected.length).map Token.kind =
          kinds_expected)) ∧
    (tokens.length - index < kinds_expected.length →
      match_tokens tokens index kinds_expected = none) :=
  ⟨fun p => match_tokens_some_iff, match_tokens_short⟩

theorem claim_C7_witness :
    match_tokens demoTokens 0 kinds_before = some 5 ∧
      match_tokens demoTokens 7 kinds_before = none :=
  ⟨((claim_C7 demoTokens 0 kinds_before).1 5).mpr (by decide),
   (claim_C7 demoTokens 7 kinds_before).2 (by decide)⟩

/-- Claim C6: when the return keyword is missing, parse_return fails with
its diagnostic at the expected position (GOT mode, anchored at the starting
index); when the semicolon after the expression is missing, it fails with
an AFTER-mode diagnostic at the position one past the last consumed token;
and the truncated input `return 4` yields the single AFTER diagnostic
anchored after the `4`, no internal match failure leaking (parse_return
returns an Except ParserError, so a MatchError cannot escape by type). -/
theorem claim_C6 :
    (∀ (tokens : List Token) (index : Nat),
      match_token tokens index TokenKind.return_kw = none →
      parse_return tokens index =
        Except.error (ParserError.mk "expected return keyword" index Anchor.GOT)) ∧
    (∀ (tokens : List Token) (index index1 index2 : Nat) (n : Node),
      match_token tokens index TokenKind.return_kw = some index1 →
      parse_expression tokens index1 = Except.ok (n, index2) →
      match_token tokens index2 TokenKind.semicolon = none →
      parse_return tokens index =
        Except.error (ParserError.mk "expected semicolon" index2 Anchor.AFTER)) ∧
    parse_return [tok_return, tok_num4] 0 =
      Except.error (ParserError.mk "expected semicolon" 2 Anchor.AFTER) := by
  refine ⟨?_, ?_, rfl⟩
  · intro tokens index hm
    unfold parse_return
    rw [hm]
  · intro tokens index index1 index2 n hm hex hsem
    unfold parse_return
    simp only [hm, hex]
    unfold expect_semicolon
    simp only [hsem]

theorem claim_C6_witness :
    parse_return [tok_num4] 0 =
        Except.error (ParserError.mk "expected return keyword" 0 Anchor.GOT) ∧
      parse_return [tok_return, tok_num4] 0 =
        Except.error (ParserError.mk "expected semicolon" 2 Anchor.AFTER) :=
  ⟨claim_C6.1 [tok_num4] 0 rfl,
   claim_C6.2.1 [tok_return, tok_num4] 0 1 2 (Node.NumberNode tok_num4) rfl rfl rfl⟩

/-- Claim C8: when the main production succeeds but unconsumed tokens
remain, the top-level parse raises the "unexpected token" error anchored AT
the first leftover token instead of returning the tree; on the input
`int main ( ) { return 4 ; } extra` the error is anchored at position 9,
which holds the token `extra`. -/
theorem claim_C8 :
    (∀ (tokens : List Token) (nd : Node) (index : Nat)
      (be2 : Option ParserError),
      parse_main tokens 0 none = (Except.ok (nd, index), be2) →
      tokens.drop index ≠ [] →
      parse tokens =
        Except.error (ParserError.mk "unexpected token" index Anchor.AT)) ∧
    parse (demoTokens ++ [tok_extra]) =
      Except.error (ParserError.mk "unexpected token" 9 Anchor.AT) ∧
    (demoTokens ++ [tok_extra])[9]? = some tok_extra := by
  refine ⟨?_, rfl, rfl⟩
  intro tokens nd index be2 hpm hleft
  unfold parse
  simp only [hpm]
  rw [if_neg hleft]

theorem claim_C8_witness :
    parse (demoTokens ++ [tok_extra]) =
      Except.error (ParserError.mk "unexpected token" 9 Anchor.AT) :=
  claim_C8.1 (demoTokens ++ [tok_extra]) demoTree 9
    (some (ParserError.mk "expected type name" 8 Anchor.GOT)) rfl (by decide)

/-- Claim C3 counterexample: on the input `a (` the shift-reduce loop stops
with two items on the stack, the raw open-paren token dangling above the
reduced identifier node at the bottom, and parse_expression nevertheless
succeeds with the identifier (consuming one token) instead of raising a
ParserError, refuting the claim that dangling unreduced tokens force a
failure. -/
theorem claim_C3_counterexample :
    (run [tok_a, tok_lparen] [] 0).1 =
      [StackItem.mk (Item.tok tok_lparen) 1,
       StackItem.mk (Item.node (Node.IdentifierNode tok_a)) 1] ∧
    parse_expression [tok_a, tok_lparen] 0 =
      Except.ok (Node.IdentifierNode tok_a, 1) :=
  ⟨rfl, rfl⟩

/-- Claim C3 (amended): when the loop stops, the parse succeeds exactly
when the stack is nonempty and its bottom item is an expression node; it
then returns that node and the starting position plus its span, even if
dangling unreduced items remain above the bottom (their tokens are left
unconsumed).  Only an empty stack or a raw token at the bottom raises the
GOT-anchored "expected expression" error at the original starting
position. -/
theorem claim_C3 (tokens : List Token) (index : Nat) :
    (∀ n len, (run tokens [] index).1.getLast? =
        some (StackItem.mk (Item.node n) len) →
      parse_expression tokens index = Except.ok (n, index + len)) ∧
    ((run tokens [] index).1.getLast? = none ∨
        (∃ t len, (run tokens [] index).1.getLast? =
          some (StackItem.mk (Item.tok t) len)) →
      parse_expression tokens index =
        Except.error (ParserError.mk "expected expression" index Anchor.GOT)) := by
  constructor
  · intro n len hL
    unfold parse_expression
    rw [hL]
  · intro hfail
    unfold parse_expression
    rcases hfail with hnil | ⟨t, len, htok⟩
    · rw [hnil]
    · rw [htok]

theorem claim_C3_witness :
    parse_expression [tok_a, tok_lparen] 0 =
        Except.ok (Node.IdentifierNode tok_a, 0 + 1) ∧
      parse_expression [tok_semi] 0 =
        Except.error (ParserError.mk "expected expression" 0 Anchor.GOT) :=
  ⟨(claim_C3 [tok_a, tok_lparen] 0).1 (Node.IdentifierNode tok_a) 1 rfl,
   (claim_C3 [tok_semi] 0).2 (Or.inl rfl)⟩

/-- Claim C5 counterexample: the valid program `int main ( ) { return 4 ; }`
parses successfully, but the leaf tokens of the returned tree are just the
number token `4`: the node constructors do not retain the structural
keyword and punctuation tokens, so the flattened leaves do not reproduce
the consumed input sequence. -/
theorem claim_C5_counterexample :
    parse demoTokens = Except.ok demoTree ∧
      leafTokens demoTree = [tok_num4] ∧ demoTokens ≠ [tok_num4] :=
  ⟨rfl, rfl, by decide⟩

/-- Claim C5 (amended): whenever the top-level parse succeeds, the leaf
tokens of the returned AST, read left to right, reproduce exactly the
retained tokens of the consumed input: the subsequence of tokens whose
kinds are number, identifier or a binary operator.  The structural tokens
(the main-function skeleton, parentheses, return keywords and semicolons)
are dropped by the node constructors and do not reappear. -/
theorem claim_C5 (tokens : List Token) (nd : Node)
    (h : parse tokens = Except.ok nd) : leafTokens nd = keptTokens tokens :=
  parse_ok_leaves h

theorem claim_C5_witness :
    parse demoTokens = Except.ok demoTree ∧
      leafTokens demoTree = keptTokens demoTokens :=
  ⟨rfl, claim_C5 demoTokens demoTree rfl⟩

lemma log_error_isSome (be : Option ParserError) (e : ParserError) :
    ∃ b, log_error be e = some b := by
  cases be with
  | none => exact ⟨e, rfl⟩
  | some b0 =>
    simp only [log_error]
    by_cases hge : e.amount_parsed ≥ b0.amount_parsed
    · rw [if_pos hge]; exact ⟨e, rfl⟩
    · rw [if_neg hge]; exact ⟨b0, rfl⟩

lemma best_error_fold (es : List ParserError) (hne : es ≠ []) :
    ∃ k b, k < es.length ∧ es[k]? = some b ∧
      List.foldl log_error none es = some b ∧
      (∀ (j : Nat) (a : ParserError), es[j]? = some a →
        a.amount_parsed ≤ b.amount_parsed) ∧
      (∀ (j : Nat) (a : ParserError), k < j → es[j]? = some a →
        a.amount_parsed < b.amount_parsed) := by
  induction es using List.reverseRecOn with
  | nil => exact absurd rfl hne
  | append_singleton l e ih =>
    rw [List.foldl_append]
    by_cases hl : l = []
    · subst hl
      refine ⟨0, e, by simp, rfl, rfl, ?_, ?_⟩
      · intro j a hj
        cases j with
        | zero =>
          simp only [List.nil_append, List.getElem?_cons_zero] at hj
          cases hj
          exact le_refl _
        | succ j0 => simp at hj
      · intro j a hkj hj
        cases j with
        | zero => omega
        | succ j0 => simp at hj
    · obtain ⟨k, b, hk, hgk, hfold, hmax, hstrict⟩ := ih hl
      rw [hfold]
      simp only [List.foldl_cons, List.foldl_nil]
      by_cases hge : e.amount_parsed ≥ b.amount_parsed
      · refine ⟨l.length, e, by simp, ?_, ?_, ?_, ?_⟩
        · rw [List.getElem?_append_right (le_refl l.length)]
          simp
        · show log_error (some b) e = some e
          simp only [log_error]
          rw [if_pos hge]
        · intro j a hj
          by_cases hjl : j < l.length
          · rw [List.getElem?_append_left hjl] at hj
            exact le_trans (hmax j a hj) hge
          · rw [List.getElem?_append_right (by omega)] at hj
            cases hm : j - l.length with
            | zero =>
              rw [hm] at hj
              simp only [List.getElem?_cons_zero] at hj
              cases hj
              exact le_refl _
            | succ m =>
              rw [hm] at hj
              simp at hj
        · intro j a hkj hj
          by_cases hjl : j < l.length
          · omega
          · rw [List.getElem?_append_right (by omega)] at hj
            cases hm : j - l.length with
            | zero => omega
            | succ m =>
              rw [hm] at hj
              simp at hj
      · refine ⟨k, b, by simp; omega, ?_, ?_, ?_, ?_⟩
        · rw [List.getElem?_append_left hk]
          exact hgk
        · show log_error (some b) e = some b
          simp only [log_error]
          rw [if_neg hge]
        · intro j a hj
          by_cases hjl : j < l.length
          · rw [List.getElem?_append_left hjl] at hj
            exact hmax j a hj
          · rw [List.getElem?_append_right (by omega)] at hj
            cases hm : j - l.length with
            | zero =>
              rw [hm] at hj
              simp only [List.getElem?_cons_zero] at hj
              cases hj
              omega
            | succ m =>
              rw [hm] at hj
              simp at hj
        · intro j a hkj hj
          by_cases hjl : j < l.length
          · rw [List.getElem?_append_left hjl] at hj
            exact hstrict j a hkj hj
          · rw [List.getElem?_append_right (by omega)] at hj
            cases hm : j - l.length with
            | zero =>
              rw [hm] at hj
              simp only [List.getElem?_cons_zero] at hj
              cases hj
              omega
            | succ m =>
              rw [hm] at hj
              simp at hj

/-- Claim C4: the best-error slot is the fold of log_error over the errors
logged so far; at any point it holds an error of maximal amount-parsed,
with ties resolved in favour of the newest candidate (every strictly later
logged error has strictly smaller amount-parsed); and when the top-level
parse fails, the error raised is the tracked best error obtained after
also logging the main production's own final error. -/
theorem claim_C4 :
    (∀ (es : List ParserError), es ≠ [] →
      ∃ k b, k < es.length ∧ es[k]? = some b ∧
        List.foldl log_error none es = some b ∧
        (∀ (j : Nat) (a : ParserError), es[j]? = some a →
          a.amount_parsed ≤ b.amount_parsed) ∧
        (∀ (j : Nat) (a : ParserError), k < j → es[j]? = some a →
          a.amount_parsed < b.amount_parsed)) ∧
    (∀ (tokens : List Token) (e2 : ParserError) (be : Option ParserError),
      parse_main tokens 0 none = (Except.error e2, be) →
      ∃ eBest, log_error be e2 = some eBest ∧
        parse tokens = Except.error eBest) := by
  constructor
  · exact best_error_fold
  · intro tokens e2 be hpm
    obtain ⟨eBest, hBest⟩ := log_error_isSome be e2
    refine ⟨eBest, hBest, ?_⟩
    unfold parse
    simp only [hpm, hBest, Option.getD_some]

theorem claim_C4_witness :
    (∃ k b, k < 2 ∧
      [ParserError.mk "x" 0 Anchor.AT, ParserError.mk "y" 1 Anchor.GOT][k]? =
        some b ∧
      List.foldl log_error none
        [ParserError.mk "x" 0 Anchor.AT, ParserError.mk "y" 1 Anchor.GOT] =
        some b ∧
      (∀ (j : Nat) (a : ParserError), [ParserError.mk "x" 0 Anchor.AT,
          ParserError.mk "y" 1 Anchor.GOT][j]? = some a →
        a.amount_parsed ≤ b.amount_parsed) ∧
      (∀ (j : Nat) (a : ParserError), k < j → [ParserError.mk "x" 0 Anchor.AT,
          ParserError.mk "y" 1 Anchor.GOT][j]? = some a →
        a.amount_parsed < b.amount_parsed)) ∧
    (∃ eBest, log_error none (ParserError.mk "expected main function starting" 0
        Anchor.AT) = some eBest ∧
      parse [] = Except.error eBest) :=
  ⟨claim_C4.1 [ParserError.mk "x" 0 Anchor.AT, ParserError.mk "y" 1 Anchor.GOT]
      (by decide),
   claim_C4.2 [] (ParserError.mk "expected main function starting" 0 Anchor.AT)
      none rfl⟩

/-- Claim C9: the shift-reduce loop terminates on every input: each
iteration strictly decreases the measure 3(remaining tokens) + stack size
+ raw-token count (each shift advances the cursor, each reduction shrinks
the stack or replaces its top raw token with a node), so running with any
fuel above the measure of the initial state completes; the measure of the
initial state is bounded by three times the input length; and the
statement loop of the top-level parse likewise completes within
input-length-many iterations. -/
theorem claim_C9 :
    (∀ (tokens : List Token) (stack : List StackItem) (i : Nat)
      (si : List StackItem × Nat), step tokens stack i = some si →
      expMeasure tokens si.1 si.2 < expMeasure tokens stack i) ∧
    (∀ (tokens : List Token) (stack : List StackItem) (i fuel : Nat),
      expMeasure tokens stack i < fuel →
      runF fuel tokens stack i = some (run tokens stack i)) ∧
    (∀ (tokens : List Token) (index : Nat),
      expMeasure tokens [] index ≤ 3 * tokens.length) ∧
    (∀ (fuel : Nat) (tokens : List Token) (index : Nat)
      (be : Option ParserError) (nodes : List Node),
      tokens.length + 1 - index < fuel →
      (mainLoopF fuel tokens index be nodes).isSome = true) := by
  refine ⟨?_, ?_, ?_, mainLoopF_isSome⟩
  · intro tokens stack i si hs
    exact step_decreases hs
  · intro tokens stack i fuel h
    exact runF_run h
  · intro tokens index
    simp only [expMeasure, rawCount, List.length_nil]
    omega

theorem claim_C9_witness :
    expMeasure demoTokens
        [StackItem.mk (Item.node (Node.NumberNode tok_num4)) 1] 5 <
      expMeasure demoTokens [StackItem.mk (Item.tok tok_num4) 1] 5 ∧
    runF 28 demoTokens [] 5 = some (run demoTokens [] 5) ∧
    (mainLoopF 10 demoTokens 5 none []).isSome = true :=
  ⟨claim_C9.1 demoTokens [StackItem.mk (Item.tok tok_num4) 1] 5 ([StackItem.mk
      (Item.node (Node.NumberNode tok_num4)) 1], 5) rfl,
   claim_C9.2.1 demoTokens [] 5 28 (by decide),
   claim_C9.2.2.2 10 demoTokens 5 none [] (by decide)⟩

/-- Claim C10: every grammar production that succeeds returns a strictly
larger index that does not exceed the token-list length: no production
succeeds consuming zero tokens or reports a position past the end of the
input. -/
theorem claim_C10 (tokens : List Token) :
    (∀ (index : Nat) (be be2 : Option ParserError) (nd : Node) (pos : Nat),
      index ≤ tokens.length →
      parse_main tokens index be = (Except.ok (nd, pos), be2) →
      index < pos ∧ pos ≤ tokens.length) ∧
    (∀ (index : Nat) (be be2 : Option ParserError) (nd : Node) (pos : Nat),
      index ≤ tokens.length →
      parse_statement tokens index be = (Except.ok (nd, pos), be2) →
      index < pos ∧ pos ≤ tokens.length) ∧
    (∀ (index : Nat) (nd : Node) (pos : Nat), index ≤ tokens.length →
      parse_return tokens index = Except.ok (nd, pos) →
      index < pos ∧ pos ≤ tokens.length) ∧
    (∀ (index : Nat) (nd : Node) (pos : Nat), index ≤ tokens.length →
      parse_expr_statement tokens index = Except.ok (nd, pos) →
      index < pos ∧ pos ≤ tokens.length) ∧
    (∀ (index : Nat) (nd : Node) (pos : Nat), index ≤ tokens.length →
      parse_expression tokens index = Except.ok (nd, pos) →
      index < pos ∧ pos ≤ tokens.length) ∧
    (∀ (index : Nat) (nd : Node) (pos : Nat), index ≤ tokens.length →
      parse_declaration tokens index = Except.ok (nd, pos) →
      index < pos ∧ pos ≤ tokens.length) := by
  refine ⟨?_, ?_, ?_, ?_, ?_, ?_⟩
  · intro index be be2 nd pos h0 h
    obtain ⟨h1, h2, h3⟩ := parse_main_ok h
    exact ⟨h1, h2⟩
  · intro index be be2 nd pos h0 h
    obtain ⟨h1, h2, h3⟩ := parse_statement_ok h
    exact ⟨h1, h2⟩
  · intro index nd pos h0 h
    obtain ⟨h1, h2, h3⟩ := parse_return_ok h
    exact ⟨h1, h2⟩
  · intro index nd pos h0 h
    obtain ⟨h1, h2, h3⟩ := parse_expr_statement_ok h
    exact ⟨h1, h2⟩
  · intro index nd pos h0 h
    obtain ⟨h1, h2, h3⟩ := parse_expression_ok2 h
    exact ⟨h1, h2⟩
  · intro index nd pos h0 h
    obtain ⟨h1, h2, h3⟩ := parse_declaration_ok h
    exact ⟨h1, h2⟩

theorem claim_C10_witness :
    (0 < 9 ∧ 9 ≤ demoTokens.length) ∧
      (5 < 8 ∧ 8 ≤ demoTokens.length) ∧
      (6 < 7 ∧ 7 ≤ demoTokens.length) ∧
      (0 < 3 ∧ 3 ≤ ([tok_int, tok_a, tok_semi] : List Token).length) ∧
      (0 < 2 ∧ 2 ≤ ([tok_a, tok_semi] : List Token).length) :=
  ⟨(claim_C10 demoTokens).1 0 none
      (some (ParserError.mk "expected type name" 8 Anchor.GOT)) demoTree 9
      (by decide) rfl,
   (claim_C10 demoTokens).2.1 5 none none
      (Node.ReturnNode (Node.NumberNode tok_num4)) 8 (by decide) rfl,
   (claim_C10 demoTokens).2.2.2.2.1 6 (Node.NumberNode tok_num4) 7
      (by decide) rfl,
   (claim_C10 [tok_int, tok_a, tok_semi]).2.2.2.2.2 0
      (Node.DeclarationNode tok_a) 3 (by decide) rfl,
   (claim_C10 [tok_a, tok_semi]).2.2.2.1 0
      (Node.ExprStatementNode (Node.IdentifierNode tok_a)) 2 (by decide) rfl⟩

/-! ## Operator chains: common machinery -/

/-- The node the engine reduces an atom token to: numbers before
identifiers, as in the loop's first two reduction rules. -/
def atomNode (t : Token) : Node :=
  if t.kind = TokenKind.number then Node.NumberNode t else Node.IdentifierNode t

/-- The token list of a chain tail: operator/atom pairs flattened. -/
def flatPairs : List (Token × Token) → List Token
  | [] => []
  | p :: rest => p.1 :: p.2 :: flatPairs rest

/-- The token list of the chain a op1 b op2 c ... -/
def chainToks (a : Token) (rest : List (Token × Token)) : List Token :=
  a :: flatPairs rest

lemma flatPairs_length (rest : List (Token × Token)) :
    (flatPairs rest).length = 2 * rest.length := by
  induction rest with
  | nil => rfl
  | cons p r ih => simp [flatPairs, ih]; omega

lemma lookup_add (pre suf : List Token) (k : Nat) :
    (pre ++ suf)[pre.length + k]? = suf[k]? := by
  rw [List.getElem?_append_right (by omega)]
  congr 1
  omega

lemma lookup_zero (pre suf : List Token) : (pre ++ suf)[pre.length]? = suf[0]? := by
  have h := lookup_add pre suf 0
  simpa using h

lemma step_atom_top {tokens : List Token} {i : Nat} {b : Token} {blen : Nat}
    {stack : List StackItem}
    (hb : b.kind = TokenKind.number ∨ b.kind = TokenKind.identifier) :
    step tokens (StackItem.mk (Item.tok b) blen :: stack) i =
      some (StackItem.mk (Item.node (atomNode b)) 1 :: stack, i) := by
  rcases hb with hb | hb
  · simp only [step]
    rw [if_pos hb]
    unfold atomNode
    rw [if_pos hb]
  · simp only [step]
    rw [if_neg (by rw [hb]; intro hc; cases hc)]
    rw [if_pos hb]
    unfold atomNode
    rw [if_neg (by rw [hb]; intro hc; cases hc)]

lemma step_op_top {tokens : List Token} {i : Nat} {o : Token} {olen : Nat}
    {stack : List StackItem} {t : Token}
    (ho : (binary_operators o.kind).isSome = true)
    (hg : tokens[i]? = some t) (ht : expression_token t.kind = true) :
    step tokens (StackItem.mk (Item.tok o) olen :: stack) i =
      some (StackItem.mk (Item.tok t) 1 :: StackItem.mk (Item.tok o) olen :: stack,
        i + 1) := by
  cases hko : o.kind <;> rw [hko] at ho <;>
    first
      | exact absurd ho (by decide)
      | simp [step, shiftOrBreak, hko, hg, ht]

lemma step_binop_reduce {tokens : List Token} {i : Nat} {n m : Node}
    {len mlen olen : Nat} {e : Token} {tail : List StackItem}
    (hb : (binary_operators e.kind).isSome = true)
    (hp : preempted tokens i e.kind = false) :
    step tokens (StackItem.mk (Item.node n) len :: StackItem.mk (Item.tok e) olen ::
        StackItem.mk (Item.node m) mlen :: tail) i =
      some (StackItem.mk (Item.node (Node.BinaryOperatorNode m e n))
        (mlen + olen + len) :: tail, i) := by
  simp only [step]
  rw [if_pos]
  rw [hb, hp]
  rfl

lemma preempted_end {tokens : List Token} {i : Nat} {k : TokenKind}
    (hnone : tokens[i]? = none) : preempted tokens i k = false := by
  simp [preempted, hnone]

/-! ## Assignment chains (claim C2) -/

/-- The pending stack of an assignment chain: below the top node, operator
tokens alternate with the earlier atoms, oldest at the bottom. -/
def towerTail : List (Token × Node × Nat) → List StackItem
  | [] => []
  | q :: rest => StackItem.mk (Item.tok q.1) 1 ::
      StackItem.mk (Item.node q.2.1) q.2.2 :: towerTail rest

def towerS (top : Node × Nat) (pairs : List (Token × Node × Nat)) :
    List StackItem :=
  StackItem.mk (Item.node top.1) top.2 :: towerTail pairs

/-- Folding the pending tower right to left, as the loop does once the
input is exhausted. -/
def foldTower : (Node × Nat) → List (Token × Node × Nat) → Node × Nat
  | top, [] => top
  | top, q :: rest =>
    foldTower (Node.BinaryOperatorNode q.2.1 q.1 top.1, q.2.2 + 1 + top.2) rest

/-- Consuming the remaining operator/atom pairs onto the pending tower. -/
def pushChain : (Node × Nat) → List (Token × Node × Nat) →
    List (Token × Token) → ((Node × Nat) × List (Token × Node × Nat))
  | top, pairs, [] => (top, pairs)
  | top, pairs, p :: rest =>
    pushChain (atomNode p.2, 1) ((p.1, top.1, top.2) :: pairs) rest

def chainResult (top : Node × Nat) (pairs : List (Token × Node × Nat))
    (rest : List (Token × Token)) : Node × Nat :=
  foldTower (pushChain top pairs rest).1 (pushChain top pairs rest).2

/-- The right-associative grouping of a chain, following the spec: the
first atom is combined with the grouping of the remainder. -/
def rightChain : Token → List (Token × Token) → Node
  | a, [] => atomNode a
  | a, p :: rest => Node.BinaryOperatorNode (atomNode a) p.1 (rightChain p.2 rest)

/-- The right-associative grouping with its token span. -/
def chainNode : Node → Nat → List (Token × Token) → Node × Nat
  | n, len, [] => (n, len)
  | n, len, p :: rest =>
    (Node.BinaryOperatorNode n p.1 (chainNode (atomNode p.2) 1 rest).1,
      len + 1 + (chainNode (atomNode p.2) 1 rest).2)

lemma run_tower_end : ∀ (pairs : List (Token × Node × Nat)) (top : Node × Nat)
    (tokens : List Token) (i : Nat), tokens[i]? = none →
    (∀ q ∈ pairs, (binary_operators q.1.kind).isSome = true) →
    run tokens (towerS top pairs) i =
      ([StackItem.mk (Item.node (foldTower top pairs).1) (foldTower top pairs).2],
        i) := by
  intro pairs
  induction pairs with
  | nil =>
    intro top tokens i hnone hall
    rw [run_break]
    · rfl
    · simp only [towerS, towerTail, step, shiftOrBreak, hnone]
  | cons q rest ih =>
    intro top tokens i hnone hall
    have hb : (binary_operators q.1.kind).isSome = true := hall q (by simp)
    have hstep : step tokens (towerS top ((q.1, q.2.1, q.2.2) :: rest)) i =
        some (towerS (Node.BinaryOperatorNode q.2.1 q.1 top.1,
          q.2.2 + 1 + top.2) rest, i) := by
      show step tokens (StackItem.mk (Item.node top.1) top.2 ::
        StackItem.mk (Item.tok q.1) 1 ::
        StackItem.mk (Item.node q.2.1) q.2.2 :: towerTail rest) i = _
      rw [step_binop_reduce hb (preempted_end hnone)]
      rfl
    have hq : q = (q.1, q.2.1, q.2.2) := rfl
    rw [hq] at hall ⊢
    rw [run_step hstep]
    rw [ih (Node.BinaryOperatorNode q.2.1 q.1 top.1, q.2.2 + 1 + top.2) tokens i
      hnone (fun q2 hq2 => hall q2 (by simp [hq2]))]
    rfl

lemma step_single_node_shift {tokens : List Token} {i : Nat} {n : Node}
    {len : Nat} {t : Token} (hg : tokens[i]? = some t)
    (ht : expression_token t.kind = true) :
    step tokens [StackItem.mk (Item.node n) len] i =
      some (StackItem.mk (Item.tok t) 1 :: [StackItem.mk (Item.node n) len],
        i + 1) := by
  simp [step, shiftOrBreak, hg, ht]

lemma step_node_preempted_shift {tokens : List Token} {i : Nat} {n m : Node}
    {len mlen olen : Nat} {e : Token} {tail : List StackItem} {t : Token}
    (hpre : preempted tokens i e.kind = true)
    (hg : tokens[i]? = some t) (ht : expression_token t.kind = true) :
    step tokens (StackItem.mk (Item.node n) len :: StackItem.mk (Item.tok e) olen ::
        StackItem.mk (Item.node m) mlen :: tail) i =
      some (StackItem.mk (Item.tok t) 1 :: StackItem.mk (Item.node n) len ::
        StackItem.mk (Item.tok e) olen :: StackItem.mk (Item.node m) mlen :: tail,
        i + 1) := by
  simp only [step]
  rw [if_neg (by simp [hpre])]
  simp [shiftOrBreak, hg, ht]

lemma preempted_eq_eq {tokens : List Token} {i : Nat} {t : Token}
    (hg : tokens[i]? = some t) (ht : t.kind = TokenKind.equals) :
    preempted tokens i TokenKind.equals = true := by
  simp [preempted, hg, ht, binary_operators, assignment_operators]

lemma eq_consume : ∀ (rest : List (Token × Token)) (pre : List Token)
    (top : Node × Nat) (pairs : List (Token × Node × Nat)),
    (∀ p ∈ rest, p.1.kind = TokenKind.equals ∧
      (p.2.kind = TokenKind.number ∨ p.2.kind = TokenKind.identifier)) →
    (∀ q ∈ pairs, q.1.kind = TokenKind.equals) →
    run (pre ++ flatPairs rest) (towerS top pairs) pre.length =
      ([StackItem.mk (Item.node (chainResult top pairs rest).1)
          (chainResult top pairs rest).2],
        (pre ++ flatPairs rest).length) := by
  intro rest
  induction rest with
  | nil =>
    intro pre top pairs hrest hpairs
    have hnone : (pre ++ flatPairs ([] : List (Token × Token)))[pre.length]? =
        none := by
      rw [lookup_zero]
      rfl
    have hall : ∀ q ∈ pairs, (binary_operators q.1.kind).isSome = true := by
      intro q hq
      rw [hpairs q hq]
      rfl
    rw [run_tower_end pairs top _ pre.length hnone hall]
    have hlen : (pre ++ flatPairs ([] : List (Token × Token))).length =
        pre.length := by
      simp [flatPairs]
    rw [hlen]
    rfl
  | cons p rest' ih =>
    intro pre top pairs hrest hpairs
    have ho : p.1.kind = TokenKind.equals := (hrest p (by simp)).1
    have hbk : p.2.kind = TokenKind.number ∨ p.2.kind = TokenKind.identifier :=
      (hrest p (by simp)).2
    have hg1 : (pre ++ flatPairs (p :: rest'))[pre.length]? = some p.1 := by
      rw [lookup_zero]
      rfl
    have hg2 : (pre ++ flatPairs (p :: rest'))[pre.length + 1]? = some p.2 := by
      rw [lookup_add]
      simp [flatPairs]
    have hexp1 : expression_token p.1.kind = true := by rw [ho]; rfl
    have hexp2 : expression_token p.2.kind = true := by
      rcases hbk with hbk | hbk <;> rw [hbk] <;> rfl
    have hs1 : step (pre ++ flatPairs (p :: rest')) (towerS top pairs)
        pre.length =
        some (StackItem.mk (Item.tok p.1) 1 :: towerS top pairs,
          pre.length + 1) := by
      cases pairs with
      | nil => exact step_single_node_shift hg1 hexp1
      | cons q pairs2 =>
        have hq1 : q.1.kind = TokenKind.equals := hpairs q (by simp)
        have hpre : preempted (pre ++ flatPairs (p :: rest')) pre.length
            q.1.kind = true := by
          rw [hq1]
          exact preempted_eq_eq hg1 ho
        exact step_node_preempted_shift hpre hg1 hexp1
    have hs2 : step (pre ++ flatPairs (p :: rest'))
        (StackItem.mk (Item.tok p.1) 1 :: towerS top pairs) (pre.length + 1) =
        some (StackItem.mk (Item.tok p.2) 1 :: StackItem.mk (Item.tok p.1) 1 ::
          towerS top pairs, pre.length + 1 + 1) :=
      step_op_top (by rw [ho]; rfl) hg2 hexp2
    have hs3 : step (pre ++ flatPairs (p :: rest'))
        (StackItem.mk (Item.tok p.2) 1 :: StackItem.mk (Item.tok p.1) 1 ::
          towerS top pairs) (pre.length + 1 + 1) =
        some (StackItem.mk (Item.node (atomNode p.2)) 1 ::
          StackItem.mk (Item.tok p.1) 1 :: towerS top pairs,
          pre.length + 1 + 1) :=
      step_atom_top hbk
    rw [run_step hs1, run_step hs2, run_step hs3]
    have hih := ih (pre ++ [p.1, p.2]) (atomNode p.2, 1)
      ((p.1, top.1, top.2) :: pairs)
      (fun r hr => hrest r (by simp [hr]))
      (by
        intro q hq
        rcases List.mem_cons.mp hq with hq | hq
        · rw [hq]; exact ho
        · exact hpairs q hq)
    have htk : (pre ++ [p.1, p.2]) ++ flatPairs rest' =
        pre ++ flatPairs (p :: rest') := by
      show (pre ++ [p.1, p.2]) ++ flatPairs rest' =
        pre ++ (p.1 :: p.2 :: flatPairs rest')
      simp
    have hpl : (pre ++ [p.1, p.2]).length = pre.length + 1 + 1 := by
      simp
    rw [htk, hpl] at hih
    have hstk : towerS (atomNode p.2, 1) ((p.1, top.1, top.2) :: pairs) =
        StackItem.mk (Item.node (atomNode p.2)) 1 ::
          StackItem.mk (Item.tok p.1) 1 :: towerS top pairs := rfl
    rw [hstk] at hih
    rw [hih]
    rfl

lemma chainResult_fold : ∀ (rest : List (Token × Token)) (n : Node) (len : Nat)
    (pairs : List (Token × Node × Nat)),
    chainResult (n, len) pairs rest = foldTower (chainNode n len rest) pairs := by
  intro rest
  induction rest with
  | nil => intro n len pairs; rfl
  | cons p rest' ih =>
    intro n len pairs
    show chainResult (atomNode p.2, 1) ((p.1, n, len) :: pairs) rest' = _
    rw [ih]
    rfl

lemma chainNode_node : ∀ (rest : List (Token × Token)) (a : Token),
    (chainNode (atomNode a) 1 rest).1 = rightChain a rest := by
  intro rest
  induction rest with
  | nil => intro a; rfl
  | cons p rest' ih =>
    intro a
    show Node.BinaryOperatorNode (atomNode a) p.1
        (chainNode (atomNode p.2) 1 rest').1 = _
    rw [ih]
    rfl

lemma chainNode_span : ∀ (rest : List (Token × Token)) (a : Token),
    (chainNode (atomNode a) 1 rest).2 = (chainToks a rest).length := by
  intro rest
  induction rest with
  | nil => intro a; rfl
  | cons p rest' ih =>
    intro a
    show 1 + 1 + (chainNode (atomNode p.2) 1 rest').2 = _
    rw [ih]
    show 1 + 1 + (chainToks p.2 rest').length = (chainToks a (p :: rest')).length
    simp only [chainToks, flatPairs, List.length_cons]
    omega

lemma assign_chain_run (a : Token) (rest : List (Token × Token))
    (ha : a.kind = TokenKind.number ∨ a.kind = TokenKind.identifier)
    (hrest : ∀ p ∈ rest, p.1.kind = TokenKind.equals ∧
      (p.2.kind = TokenKind.number ∨ p.2.kind = TokenKind.identifier)) :
    parse_expression (chainToks a rest) 0 =
      Except.ok (rightChain a rest, (chainToks a rest).length) := by
  have hg0 : (chainToks a rest)[0]? = some a := by
    simp [chainToks]
  have hexp0 : expression_token a.kind = true := by
    rcases ha with ha | ha <;> rw [ha] <;> rfl
  have hs0 : step (chainToks a rest) [] 0 =
      some ([StackItem.mk (Item.tok a) 1], 0 + 1) := by
    simp [step, shiftOrBreak, hg0, hexp0]
  have hs1 : step (chainToks a rest) [StackItem.mk (Item.tok a) 1] (0 + 1) =
      some ([StackItem.mk (Item.node (atomNode a)) 1], 0 + 1) :=
    step_atom_top ha
  have hcon := eq_consume rest [a] (atomNode a, 1) [] hrest
    (fun q hq => absurd hq (List.not_mem_nil q))
  have hcon2 : run (chainToks a rest) [StackItem.mk (Item.node (atomNode a)) 1]
      (0 + 1) =
      ([StackItem.mk (Item.node (chainResult (atomNode a, 1) [] rest).1)
          (chainResult (atomNode a, 1) [] rest).2],
        (chainToks a rest).length) := hcon
  unfold parse_expression
  rw [run_step hs0, run_step hs1]
  rw [hcon2]
  have hcr : chainResult (atomNode a, 1) [] rest =
      chainNode (atomNode a) 1 rest := by
    rw [chainResult_fold]
    rfl
  rw [hcr]
  rw [List.getLast?_singleton]
  rw [chainNode_node rest a, chainNode_span rest a]
  simp

/-- Claim C2: assignment is right-associative: for every chain of
identifiers joined by `=` tokens, parse_expression groups the tree from
the right, consuming the whole chain; in particular `a = b = c` yields
BinaryOperator(=, a, BinaryOperator(=, b, c)). -/
theorem claim_C2 :
    (∀ (a : Token) (rest : List (Token × Token)),
      a.kind = TokenKind.identifier →
      (∀ p ∈ rest, p.1.kind = TokenKind.equals ∧
        p.2.kind = TokenKind.identifier) →
      parse_expression (chainToks a rest) 0 =
        Except.ok (rightChain a rest, (chainToks a rest).length)) ∧
    (∀ (x y z e1 e2 : Token), x.kind = TokenKind.identifier →
      y.kind = TokenKind.identifier → z.kind = TokenKind.identifier →
      e1.kind = TokenKind.equals → e2.kind = TokenKind.equals →
      parse_expression [x, e1, y, e2, z] 0 =
        Except.ok (Node.BinaryOperatorNode (Node.IdentifierNode x) e1
          (Node.BinaryOperatorNode (Node.IdentifierNode y) e2
            (Node.IdentifierNode z)), 5)) := by
  constructor
  · intro a rest ha hrest
    exact assign_chain_run a rest (Or.inr ha)
      (fun p hp => ⟨(hrest p hp).1, Or.inr (hrest p hp).2⟩)
  · intro x y z e1 e2 hx hy hz he1 he2
    have h := assign_chain_run x [(e1, y), (e2, z)] (Or.inr hx)
      (by
        intro p hp
        rcases List.mem_cons.mp hp with hp | hp
        · rw [hp]; exact ⟨he1, Or.inr hy⟩
        · rcases List.mem_cons.mp hp with hp | hp
          · rw [hp]; exact ⟨he2, Or.inr hz⟩
          · exact absurd hp (List.not_mem_nil p))
    have hch : chainToks x [(e1, y), (e2, z)] = [x, e1, y, e2, z] := rfl
    rw [hch] at h
    rw [h]
    have hr1 : atomNode x = Node.IdentifierNode x := by
      unfold atomNode
      rw [if_neg (by rw [hx]; intro hc; cases hc)]
    have hr2 : atomNode y = Node.IdentifierNode y := by
      unfold atomNode
      rw [if_neg (by rw [hy]; intro hc; cases hc)]
    have hr3 : atomNode z = Node.IdentifierNode z := by
      unfold atomNode
      rw [if_neg (by rw [hz]; intro hc; cases hc)]
    show Except.ok (Node.BinaryOperatorNode (atomNode x) e1
      (Node.BinaryOperatorNode (atomNode y) e2 (atomNode z)), 5) = _
    rw [hr1, hr2, hr3]

theorem claim_C2_witness :
    parse_expression [tok_a, tok_assign, tok_b, tok_assign, tok_c] 0 =
      Except.ok (Node.BinaryOperatorNode (Node.IdentifierNode tok_a) tok_assign
        (Node.BinaryOperatorNode (Node.IdentifierNode tok_b) tok_assign
          (Node.IdentifierNode tok_c)), 5) :=
  claim_C2.2 tok_a tok_b tok_c tok_assign tok_assign rfl rfl rfl rfl rfl

/-! ## Plus/star chains (claim C1) -/

lemma preempted_op_next_star {tokens : List Token} {i : Nat} {t : Token}
    (hg : tokens[i]? = some t)
    (hk : t.kind = TokenKind.plus ∨ t.kind = TokenKind.star) :
    preempted tokens i TokenKind.star = false := by
  rcases hk with hk | hk <;>
    simp [preempted, hg, hk, binary_operators, assignment_operators]

lemma preempted_plus_vs_plus {tokens : List Token} {i : Nat} {t : Token}
    (hg : tokens[i]? = some t) (hk : t.kind = TokenKind.plus) :
    preempted tokens i TokenKind.plus = false := by
  simp [preempted, hg, hk, binary_operators, assignment_operators]

lemma preempted_plus_vs_star {tokens : List Token} {i : Nat} {t : Token}
    (hg : tokens[i]? = some t) (hk : t.kind = TokenKind.star) :
    preempted tokens i TokenKind.plus = true := by
  simp [preempted, hg, hk, binary_operators, assignment_operators]

/-- The part of the stack below the pending product: empty, or a pending
plus token above the completed left-associative sum. -/
def sumTail : Option (Node × Nat × Token) → List StackItem
  | none => []
  | some s => [StackItem.mk (Item.tok s.2.2) 1, StackItem.mk (Item.node s.1) s.2.1]

/-- Closing the pending product into the sum accumulator. -/
def mergeNode : Option (Node × Nat × Token) → Node → Nat → Node × Nat
  | none, pn, pl => (pn, pl)
  | some s, pn, pl => (Node.BinaryOperatorNode s.1 s.2.2 pn, s.2.1 + 1 + pl)

/-- The precedence-respecting left-associative folding of a `+`/`*` chain,
following the spec: a `*` extends the current product on the left; a `+`
closes the product into the left-associative sum and starts a new product.
The accumulator is (optional completed sum with its pending plus token,
current product node, current product span). -/
def psFold : Option (Node × Nat × Token) → Node → Nat →
    List (Token × Token) → Node × Nat
  | sacc, pn, pl, [] => mergeNode sacc pn pl
  | sacc, pn, pl, p :: rest =>
    if p.1.kind = TokenKind.star then
      psFold sacc (Node.BinaryOperatorNode pn p.1 (atomNode p.2)) (pl + 1 + 1) rest
    else
      psFold (some ((mergeNode sacc pn pl).1, (mergeNode sacc pn pl).2, p.1))
        (atomNode p.2) 1 rest

/-- The loop's stack between atoms, which depends on the next operator: a
pending `*` keeps the product unmerged on top of the sum; otherwise
everything is already folded into a single node. -/
def stackFor (sacc : Option (Node × Nat × Token)) (pn : Node) (pl : Nat)
    (la : Option TokenKind) : List StackItem :=
  if la = some TokenKind.star then
    StackItem.mk (Item.node pn) pl :: sumTail sacc
  else
    [StackItem.mk (Item.node (mergeNode sacc pn pl).1) (mergeNode sacc pn pl).2]

lemma stackFor_star (sacc : Option (Node × Nat × Token)) (pn : Node) (pl : Nat) :
    stackFor sacc pn pl (some TokenKind.star) =
      StackItem.mk (Item.node pn) pl :: sumTail sacc := by
  unfold stackFor
  rw [if_pos rfl]

lemma stackFor_not_star (sacc : Option (Node × Nat × Token)) (pn : Node)
    (pl : Nat) (la : Option TokenKind) (h : ¬(la = some TokenKind.star)) :
    stackFor sacc pn pl la =
      [StackItem.mk (Item.node (mergeNode sacc pn pl).1)
        (mergeNode sacc pn pl).2] := by
  unfold stackFor
  rw [if_neg h]

lemma ps_consume : ∀ (rest : List (Token × Token)) (pre : List Token)
    (sacc : Option (Node × Nat × Token)) (pn : Node) (pl : Nat),
    (∀ p ∈ rest, (p.1.kind = TokenKind.plus ∨ p.1.kind = TokenKind.star) ∧
      (p.2.kind = TokenKind.number ∨ p.2.kind = TokenKind.identifier)) →
    (∀ s, sacc = some s → s.2.2.kind = TokenKind.plus) →
    run (pre ++ flatPairs rest)
      (stackFor sacc pn pl (rest.head?.map (fun p => p.1.kind))) pre.length =
      ([StackItem.mk (Item.node (psFold sacc pn pl rest).1)
          (psFold sacc pn pl rest).2],
        (pre ++ flatPairs rest).length) := by
  intro rest
  induction rest with
  | nil =>
    intro pre sacc pn pl hrest hsacc
    have hla : (([] : List (Token × Token)).head?.map (fun p => p.1.kind)) =
        (none : Option TokenKind) := rfl
    rw [hla, stackFor_not_star _ _ _ _ (by intro hc; cases hc)]
    have hnone : (pre ++ flatPairs ([] : List (Token × Token)))[pre.length]? =
        none := by
      rw [lookup_zero]
      rfl
    have hbreak : step (pre ++ flatPairs ([] : List (Token × Token)))
        [StackItem.mk (Item.node (mergeNode sacc pn pl).1)
          (mergeNode sacc pn pl).2] pre.length = none := by
      simp only [step, shiftOrBreak, hnone]
    rw [run_break hbreak]
    have hlen : (pre ++ flatPairs ([] : List (Token × Token))).length =
        pre.length := by
      simp [flatPairs]
    rw [hlen]
    rfl
  | cons p rest' ih =>
    intro pre sacc pn pl hrest hsacc
    have hop : p.1.kind = TokenKind.plus ∨ p.1.kind = TokenKind.star :=
      (hrest p (by simp)).1
    have hat : p.2.kind = TokenKind.number ∨ p.2.kind = TokenKind.identifier :=
      (hrest p (by simp)).2
    have hg1 : (pre ++ flatPairs (p :: rest'))[pre.length]? = some p.1 := by
      rw [lookup_zero]
      rfl
    have hg2 : (pre ++ flatPairs (p :: rest'))[pre.length + 1]? = some p.2 := by
      rw [lookup_add]
      simp [flatPairs]
    have hg3 : (pre ++ flatPairs (p :: rest'))[pre.length + 1 + 1]? =
        (flatPairs rest')[0]? := by
      rw [show pre.length + 1 + 1 = pre.length + 2 from rfl, lookup_add]
      simp [flatPairs]
    have hexp1 : expression_token p.1.kind = true := by
      rcases hop with h | h <;> rw [h] <;> rfl
    have hexp2 : expression_token p.2.kind = true := by
      rcases hat with h | h <;> rw [h] <;> rfl
    have hopSome : (binary_operators p.1.kind).isSome = true := by
      rcases hop with h | h <;> rw [h] <;> rfl
    have hrest2 : ∀ q ∈ rest',
        (q.1.kind = TokenKind.plus ∨ q.1.kind = TokenKind.star) ∧
        (q.2.kind = TokenKind.number ∨ q.2.kind = TokenKind.identifier) :=
      fun q hq => hrest q (by simp [hq])
    have htk : (pre ++ [p.1, p.2]) ++ flatPairs rest' =
        pre ++ flatPairs (p :: rest') := by
      show (pre ++ [p.1, p.2]) ++ flatPairs rest' =
        pre ++ (p.1 :: p.2 :: flatPairs rest')
      simp
    have hpl2 : (pre ++ [p.1, p.2]).length = pre.length + 1 + 1 := by
      simp
    have hla : ((p :: rest').head?.map (fun q => q.1.kind)) =
        some p.1.kind := rfl
    rw [hla]
    rcases hop with hP | hS
    · -- the operator is a plus: the stack is the single merged node
      rw [hP, stackFor_not_star _ _ _ _ (by intro hc; cases hc)]
      have hs1 := @step_single_node_shift (pre ++ flatPairs (p :: rest'))
        pre.length (mergeNode sacc pn pl).1 (mergeNode sacc pn pl).2 p.1
        hg1 hexp1
      have hs2 := @step_op_top (pre ++ flatPairs (p :: rest')) (pre.length + 1)
        p.1 1 [StackItem.mk (Item.node (mergeNode sacc pn pl).1)
          (mergeNode sacc pn pl).2] p.2 hopSome hg2 hexp2
      have hs3 := @step_atom_top (pre ++ flatPairs (p :: rest'))
        (pre.length + 1 + 1) p.2 1
        (StackItem.mk (Item.tok p.1) 1 ::
          [StackItem.mk (Item.node (mergeNode sacc pn pl).1)
            (mergeNode sacc pn pl).2]) hat
      rw [run_step hs1, run_step hs2, run_step hs3]
      have hfold : psFold sacc pn pl (p :: rest') =
          psFold (some ((mergeNode sacc pn pl).1, (mergeNode sacc pn pl).2, p.1))
            (atomNode p.2) 1 rest' := by
        show (if p.1.kind = TokenKind.star then _ else _) = _
        rw [if_neg (by rw [hP]; intro hc; cases hc)]
      rw [hfold]
      have hsacc2 : ∀ s, (some ((mergeNode sacc pn pl).1,
          (mergeNode sacc pn pl).2, p.1) : Option (Node × Nat × Token)) =
          some s → s.2.2.kind = TokenKind.plus := by
        intro s hs
        cases hs
        exact hP
      have hih := ih (pre ++ [p.1, p.2])
        (some ((mergeNode sacc pn pl).1, (mergeNode sacc pn pl).2, p.1))
        (atomNode p.2) 1 hrest2 hsacc2
      rw [htk, hpl2] at hih
      cases rest' with
      | nil =>
        have hnone : (pre ++ flatPairs (p :: ([] : List (Token × Token))))[pre.length + 1 + 1]? = none := by
          rw [hg3]
          rfl
        have hs4 := @step_binop_reduce (pre ++ flatPairs (p :: ([] : List (Token × Token))))
          (pre.length + 1 + 1) (atomNode p.2) (mergeNode sacc pn pl).1 1
          (mergeNode sacc pn pl).2 1 p.1 [] hopSome (preempted_end hnone)
        rw [run_step hs4]
        have hla2 : ((([] : List (Token × Token))).head?.map
            (fun q => q.1.kind)) = (none : Option TokenKind) := rfl
        rw [hla2, stackFor_not_star _ _ _ _ (by intro hc; cases hc)] at hih
        exact hih
      | cons p2 r2 =>
        have hg3x : (pre ++ flatPairs (p :: p2 :: r2))[pre.length + 1 + 1]? =
            some p2.1 := by
          rw [hg3]
          simp [flatPairs]
        have hop2 : p2.1.kind = TokenKind.plus ∨ p2.1.kind = TokenKind.star :=
          (hrest2 p2 (by simp)).1
        have hla2 : ((p2 :: r2).head?.map (fun q => q.1.kind)) =
            some p2.1.kind := rfl
        rw [hla2] at hih
        rcases hop2 with hop2 | hop2
        · -- next operator is a plus: reduce now
          have hs4 := @step_binop_reduce (pre ++ flatPairs (p :: p2 :: r2))
            (pre.length + 1 + 1) (atomNode p.2) (mergeNode sacc pn pl).1 1
            (mergeNode sacc pn pl).2 1 p.1 [] hopSome
            (by rw [hP]; exact preempted_plus_vs_plus hg3x hop2)
          rw [run_step hs4]
          rw [hop2, stackFor_not_star _ _ _ _ (by intro hc; cases hc)] at hih
          exact hih
        · -- next operator is a star: the reduction is pre-empted
          rw [hop2, stackFor_star] at hih
          exact hih
    · -- the operator is a star: the stack keeps the product unmerged
      rw [hS, stackFor_star]
      have hs1 : step (pre ++ flatPairs (p :: rest'))
          (StackItem.mk (Item.node pn) pl :: sumTail sacc) pre.length =
          some (StackItem.mk (Item.tok p.1) 1 ::
            StackItem.mk (Item.node pn) pl :: sumTail sacc, pre.length + 1) := by
        cases hsc : sacc with
        | none => exact step_single_node_shift hg1 hexp1
        | some s =>
          have hsk : s.2.2.kind = TokenKind.plus := hsacc s hsc
          have hpre : preempted (pre ++ flatPairs (p :: rest')) pre.length
              s.2.2.kind = true := by
            rw [hsk]
            exact preempted_plus_vs_star hg1 hS
          exact step_node_preempted_shift hpre hg1 hexp1
      have hs2 := @step_op_top (pre ++ flatPairs (p :: rest')) (pre.length + 1)
        p.1 1 (StackItem.mk (Item.node pn) pl :: sumTail sacc) p.2
        hopSome hg2 hexp2
      have hs3 := @step_atom_top (pre ++ flatPairs (p :: rest'))
        (pre.length + 1 + 1) p.2 1
        (StackItem.mk (Item.tok p.1) 1 ::
          StackItem.mk (Item.node pn) pl :: sumTail sacc) hat
      rw [run_step hs1, run_step hs2, run_step hs3]
      have hfold : psFold sacc pn pl (p :: rest') =
          psFold sacc (Node.BinaryOperatorNode pn p.1 (atomNode p.2))
            (pl + 1 + 1) rest' := by
        show (if p.1.kind = TokenKind.star then _ else _) = _
        rw [if_pos hS]
      rw [hfold]
      have hih := ih (pre ++ [p.1, p.2]) sacc
        (Node.BinaryOperatorNode pn p.1 (atomNode p.2)) (pl + 1 + 1)
        hrest2 hsacc
      rw [htk, hpl2] at hih
      cases rest' with
      | nil =>
        have hnone : (pre ++ flatPairs (p :: ([] : List (Token × Token))))[pre.length + 1 + 1]? = none := by
          rw [hg3]
          rfl
        have hs4 := @step_binop_reduce (pre ++ flatPairs (p :: ([] : List (Token × Token))))
          (pre.length + 1 + 1) (atomNode p.2) pn 1 pl 1 p.1
          (sumTail sacc) hopSome (preempted_end hnone)
        rw [run_step hs4]
        have hla2 : ((([] : List (Token × Token))).head?.map
            (fun q => q.1.kind)) = (none : Option TokenKind) := rfl
        rw [hla2, stackFor_not_star _ _ _ _ (by intro hc; cases hc)] at hih
        cases hsc : sacc with
        | none =>
          rw [hsc] at hih
          exact hih
        | some s =>
          have hsk : s.2.2.kind = TokenKind.plus := hsacc s hsc
          have hs5 : step (pre ++ flatPairs (p :: ([] : List (Token × Token))))
              (StackItem.mk (Item.node (Node.BinaryOperatorNode pn p.1
                  (atomNode p.2))) (pl + 1 + 1) :: sumTail (some s))
              (pre.length + 1 + 1) =
              some ([StackItem.mk (Item.node (Node.BinaryOperatorNode s.1 s.2.2
                  (Node.BinaryOperatorNode pn p.1 (atomNode p.2))))
                (s.2.1 + 1 + (pl + 1 + 1))], pre.length + 1 + 1) := by
            show step _ (StackItem.mk (Item.node (Node.BinaryOperatorNode pn p.1
              (atomNode p.2))) (pl + 1 + 1) :: StackItem.mk (Item.tok s.2.2) 1 ::
              StackItem.mk (Item.node s.1) s.2.1 :: []) _ = _
            refine step_binop_reduce ?_ (preempted_end hnone)
            rw [hsk]
            rfl
          rw [run_step hs5]
          rw [hsc] at hih
          exact hih
      | cons p2 r2 =>
        have hg3x : (pre ++ flatPairs (p :: p2 :: r2))[pre.length + 1 + 1]? =
            some p2.1 := by
          rw [hg3]
          simp [flatPairs]
        have hop2 : p2.1.kind = TokenKind.plus ∨ p2.1.kind = TokenKind.star :=
          (hrest2 p2 (by simp)).1
        have hpre4 : preempted (pre ++ flatPairs (p :: p2 :: r2))
            (pre.length + 1 + 1) p.1.kind = false := by
          rw [hS]
          exact preempted_op_next_star hg3x hop2
        have hs4 := @step_binop_reduce (pre ++ flatPairs (p :: p2 :: r2))
          (pre.length + 1 + 1) (atomNode p.2) pn 1 pl 1 p.1
          (sumTail sacc) hopSome hpre4
        rw [run_step hs4]
        have hla2 : ((p2 :: r2).head?.map (fun q => q.1.kind)) =
            some p2.1.kind := rfl
        rw [hla2] at hih
        rcases hop2 with hop2 | hop2
        · -- next operator is a plus: the sum folds before it is shifted
          rw [hop2, stackFor_not_star _ _ _ _ (by intro hc; cases hc)] at hih
          cases hsc : sacc with
          | none =>
            rw [hsc] at hih
            exact hih
          | some s =>
            have hsk : s.2.2.kind = TokenKind.plus := hsacc s hsc
            have hs5 : step (pre ++ flatPairs (p :: p2 :: r2))
                (StackItem.mk (Item.node (Node.BinaryOperatorNode pn p.1
                    (atomNode p.2))) (pl + 1 + 1) :: sumTail (some s))
                (pre.length + 1 + 1) =
                some ([StackItem.mk (Item.node (Node.BinaryOperatorNode s.1
                    s.2.2 (Node.BinaryOperatorNode pn p.1 (atomNode p.2))))
                  (s.2.1 + 1 + (pl + 1 + 1))], pre.length + 1 + 1) := by
              show step _ (StackItem.mk (Item.node (Node.BinaryOperatorNode pn
                p.1 (atomNode p.2))) (pl + 1 + 1) ::
                StackItem.mk (Item.tok s.2.2) 1 ::
                StackItem.mk (Item.node s.1) s.2.1 :: []) _ = _
              refine step_binop_reduce ?_ ?_
              · rw [hsk]
                rfl
              · rw [hsk]
                exact preempted_plus_vs_plus hg3x hop2
            rw [run_step hs5]
            rw [hsc] at hih
            exact hih
        · -- next operator is a star: the stack stays unmerged
          rw [hop2, stackFor_star] at hih
          exact hih

lemma psFold_cons_star {sacc : Option (Node × Nat × Token)} {pn : Node}
    {pl : Nat} {p : Token × Token} {rest : List (Token × Token)}
    (hk : p.1.kind = TokenKind.star) :
    psFold sacc pn pl (p :: rest) =
      psFold sacc (Node.BinaryOperatorNode pn p.1 (atomNode p.2))
        (pl + 1 + 1) rest := by
  simp only [psFold]
  rw [if_pos hk]

lemma psFold_cons_plus {sacc : Option (Node × Nat × Token)} {pn : Node}
    {pl : Nat} {p : Token × Token} {rest : List (Token × Token)}
    (hk : ¬(p.1.kind = TokenKind.star)) :
    psFold sacc pn pl (p :: rest) =
      psFold (some ((mergeNode sacc pn pl).1, (mergeNode sacc pn pl).2, p.1))
        (atomNode p.2) 1 rest := by
  simp only [psFold]
  rw [if_neg hk]

lemma psFold_span : ∀ (rest : List (Token × Token))
    (sacc : Option (Node × Nat × Token)) (pn : Node) (pl : Nat),
    (psFold sacc pn pl rest).2 = (mergeNode sacc pn pl).2 +
      (flatPairs rest).length := by
  intro rest
  induction rest with
  | nil =>
    intro sacc pn pl
    show (mergeNode sacc pn pl).2 = (mergeNode sacc pn pl).2 + (0 : Nat)
    omega
  | cons p rest' ih =>
    intro sacc pn pl
    by_cases hk : p.1.kind = TokenKind.star
    · rw [psFold_cons_star hk]
      rw [ih]
      cases sacc with
      | none =>
        simp only [mergeNode, flatPairs, List.length_cons]
        omega
      | some s =>
        simp only [mergeNode, flatPairs, List.length_cons]
        omega
    · rw [psFold_cons_plus hk]
      rw [ih]
      cases sacc with
      | none =>
        simp only [mergeNode, flatPairs, List.length_cons]
        omega
      | some s =>
        simp only [mergeNode, flatPairs, List.length_cons]
        omega

lemma ps_chain_run (a : Token) (rest : List (Token × Token))
    (ha : a.kind = TokenKind.number ∨ a.kind = TokenKind.identifier)
    (hrest : ∀ p ∈ rest,
      (p.1.kind = TokenKind.plus ∨ p.1.kind = TokenKind.star) ∧
      (p.2.kind = TokenKind.number ∨ p.2.kind = TokenKind.identifier)) :
    parse_expression (chainToks a rest) 0 =
      Except.ok ((psFold none (atomNode a) 1 rest).1,
        (chainToks a rest).length) := by
  have hg0 : (chainToks a rest)[0]? = some a := by
    simp [chainToks]
  have hexp0 : expression_token a.kind = true := by
    rcases ha with h | h <;> rw [h] <;> rfl
  have hs0 : step (chainToks a rest) [] 0 =
      some ([StackItem.mk (Item.tok a) 1], 0 + 1) := by
    simp [step, shiftOrBreak, hg0, hexp0]
  have hs1 : step (chainToks a rest) [StackItem.mk (Item.tok a) 1] (0 + 1) =
      some ([StackItem.mk (Item.node (atomNode a)) 1], 0 + 1) :=
    step_atom_top ha
  have hstk0 : stackFor none (atomNode a) 1
      (rest.head?.map (fun p => p.1.kind)) =
      [StackItem.mk (Item.node (atomNode a)) 1] := by
    unfold stackFor
    split <;> rfl
  have hcon := ps_consume rest [a] none (atomNode a) 1 hrest
    (fun s hs => Option.noConfusion hs)
  rw [hstk0] at hcon
  have hcon2 : run (chainToks a rest) [StackItem.mk (Item.node (atomNode a)) 1]
      (0 + 1) =
      ([StackItem.mk (Item.node (psFold none (atomNode a) 1 rest).1)
          (psFold none (atomNode a) 1 rest).2],
        (chainToks a rest).length) := hcon
  unfold parse_expression
  rw [run_step hs0, run_step hs1]
  rw [hcon2]
  rw [List.getLast?_singleton]
  have hspan : (psFold none (atomNode a) 1 rest).2 =
      (chainToks a rest).length := by
    rw [psFold_span]
    show 1 + (flatPairs rest).length = (chainToks a rest).length
    simp [chainToks]
    omega
  rw [hspan]
  simp

/-- Claim C1: for every expression over identifiers and numbers built only
from the operators `+` and `*`, parse_expression produces the tree that
respects precedence (star binds tighter than plus) and folds
equal-precedence chains left-associatively: the result is the
left-associative precedence folding psFold, in which a `*` extends the
current product on the left and a `+` closes the product into the
left-associative sum; in particular `a + b * c` parses to
BinaryOperator(+, a, BinaryOperator(*, b, c)), `a * b + c` to
BinaryOperator(+, BinaryOperator(*, a, b), c), and `a + b + c` to
BinaryOperator(+, BinaryOperator(+, a, b), c). -/
theorem claim_C1 :
    (∀ (a : Token) (rest : List (Token × Token)),
      (a.kind = TokenKind.number ∨ a.kind = TokenKind.identifier) →
      (∀ p ∈ rest,
        (p.1.kind = TokenKind.plus ∨ p.1.kind = TokenKind.star) ∧
        (p.2.kind = TokenKind.number ∨ p.2.kind = TokenKind.identifier)) →
      parse_expression (chainToks a rest) 0 =
        Except.ok ((psFold none (atomNode a) 1 rest).1,
          (chainToks a rest).length)) ∧
    (∀ (x y z o1 o2 : Token), x.kind = TokenKind.identifier →
      y.kind = TokenKind.identifier → z.kind = TokenKind.identifier →
      o1.kind = TokenKind.plus → o2.kind = TokenKind.star →
      parse_expression [x, o1, y, o2, z] 0 =
        Except.ok (Node.BinaryOperatorNode (Node.IdentifierNode x) o1
          (Node.BinaryOperatorNode (Node.IdentifierNode y) o2
            (Node.IdentifierNode z)), 5)) ∧
    (∀ (x y z o1 o2 : Token), x.kind = TokenKind.identifier →
      y.kind = TokenKind.identifier → z.kind = TokenKind.identifier →
      o1.kind = TokenKind.star → o2.kind = TokenKind.plus →
      parse_expression [x, o1, y, o2, z] 0 =
        Except.ok (Node.BinaryOperatorNode
          (Node.BinaryOperatorNode (Node.IdentifierNode x) o1
            (Node.IdentifierNode y)) o2 (Node.IdentifierNode z), 5)) ∧
    (∀ (x y z o1 o2 : Token), x.kind = TokenKind.identifier →
      y.kind = TokenKind.identifier → z.kind = TokenKind.identifier →
      o1.kind = TokenKind.plus → o2.kind = TokenKind.plus →
      parse_expression [x, o1, y, o2, z] 0 =
        Except.ok (Node.BinaryOperatorNode
          (Node.BinaryOperatorNode (Node.IdentifierNode x) o1
            (Node.IdentifierNode y)) o2 (Node.IdentifierNode z), 5)) := by
  refine ⟨ps_chain_run, ?_, ?_, ?_⟩
  · intro x y z o1 o2 hx hy hz ho1 ho2
    have h := ps_chain_run x [(o1, y), (o2, z)] (Or.inr hx)
      (by
        intro p hp
        rcases List.mem_cons.mp hp with hp | hp
        · rw [hp]; exact ⟨Or.inl ho1, Or.inr hy⟩
        · rcases List.mem_cons.mp hp with hp | hp
          · rw [hp]; exact ⟨Or.inr ho2, Or.inr hz⟩
          · exact absurd hp (List.not_mem_nil p))
    have hch : chainToks x [(o1, y), (o2, z)] = [x, o1, y, o2, z] := rfl
    rw [hch] at h
    rw [h]
    have hf : (psFold none (atomNode x) 1 [(o1, y), (o2, z)]).1 =
        Node.BinaryOperatorNode (Node.IdentifierNode x) o1
          (Node.BinaryOperatorNode (Node.IdentifierNode y) o2
            (Node.IdentifierNode z)) := by
      simp [psFold, mergeNode, atomNode, ho1, ho2, hx, hy, hz]
    rw [hf]
    rfl
  · intro x y z o1 o2 hx hy hz ho1 ho2
    have h := ps_chain_run x [(o1, y), (o2, z)] (Or.inr hx)
      (by
        intro p hp
        rcases List.mem_cons.mp hp with hp | hp
        · rw [hp]; exact ⟨Or.inr ho1, Or.inr hy⟩
        · rcases List.mem_cons.mp hp with hp | hp
          · rw [hp]; exact ⟨Or.inl ho2, Or.inr hz⟩
          · exact absurd hp (List.not_mem_nil p))
    have hch : chainToks x [(o1, y), (o2, z)] = [x, o1, y, o2, z] := rfl
    rw [hch] at h
    rw [h]
    have hf : (psFold none (atomNode x) 1 [(o1, y), (o2, z)]).1 =
        Node.BinaryOperatorNode (Node.BinaryOperatorNode
          (Node.IdentifierNode x) o1 (Node.IdentifierNode y)) o2
          (Node.IdentifierNode z) := by
      simp [psFold, mergeNode, atomNode, ho1, ho2, hx, hy, hz]
    rw [hf]
    rfl
  · intro x y z o1 o2 hx hy hz ho1 ho2
    have h := ps_chain_run x [(o1, y), (o2, z)] (Or.inr hx)
      (by
        intro p hp
        rcases List.mem_cons.mp hp with hp | hp
        · rw [hp]; exact ⟨Or.inl ho1, Or.inr hy⟩
        · rcases List.mem_cons.mp hp with hp | hp
          · rw [hp]; exact ⟨Or.inl ho2, Or.inr hz⟩
          · exact absurd hp (List.not_mem_nil p))
    have hch : chainToks x [(o1, y), (o2, z)] = [x, o1, y, o2, z] := rfl
    rw [hch] at h
    rw [h]
    have hf : (psFold none (atomNode x) 1 [(o1, y), (o2, z)]).1 =
        Node.BinaryOperatorNode (Node.BinaryOperatorNode
          (Node.IdentifierNode x) o1 (Node.IdentifierNode y)) o2
          (Node.IdentifierNode z) := by
      simp [psFold, mergeNode, atomNode, ho1, ho2, hx, hy, hz]
    rw [hf]
    rfl

theorem claim_C1_witness :
    parse_expression [tok_a, tok_plus, tok_b, tok_star, tok_c] 0 =
        Except.ok (Node.BinaryOperatorNode (Node.IdentifierNode tok_a) tok_plus
          (Node.BinaryOperatorNode (Node.IdentifierNode tok_b) tok_star
            (Node.IdentifierNode tok_c)), 5) ∧
      parse_expression [tok_a, tok_star, tok_b, tok_plus, tok_c] 0 =
        Except.ok (Node.BinaryOperatorNode
          (Node.BinaryOperatorNode (Node.IdentifierNode tok_a) tok_star
            (Node.IdentifierNode tok_b)) tok_plus
          (Node.IdentifierNode tok_c), 5) ∧
      parse_expression [tok_a, tok_plus, tok_b, tok_plus, tok_c] 0 =
        Except.ok (Node.BinaryOperatorNode
          (Node.BinaryOperatorNode (Node.IdentifierNode tok_a) tok_plus
            (Node.IdentifierNode tok_b)) tok_plus
          (Node.IdentifierNode tok_c), 5) :=
  ⟨claim_C1.2.1 tok_a tok_b tok_c tok_plus tok_star rfl rfl rfl rfl rfl,
   claim_C1.2.2.1 tok_a tok_b tok_c tok_star tok_plus rfl rfl rfl rfl rfl,
   claim_C1.2.2.2 tok_a tok_b tok_c tok_plus tok_plus rfl rfl rfl rfl rfl⟩
